import Mathlib

/-!
Verification development for a 2D Strip Packing Problem solver engine.

The definitions below are a shallow embedding of the Python sources:
`spp/core.py` (data model, lower bounds, feasibility checker),
`spp/solvers/heuristics.py` (NFDH shelf and Skyline decoders),
`spp/solvers/metaheuristics.py` (the permutation/bits decoder shared by
GA, SA and Tabu), `spp/solvers/level_milp.py` (the shelf/level MILP model
and its decoder) and `spp/solvers/milp.py` (the coordinate MILP model,
its decoder and the warm start).  Python integers are modelled by `Nat`
(all quantities handled by the programs are non-negative integers);
constraint arithmetic of the MILP layer, which manipulates possibly
negative linear expressions such as `count - 1`, is modelled over `Int`.
Fallible code (the `ValueError` geometry guard of the decoders, the
`KeyError` lookup of the metaheuristic decoder) is modelled with
`Except`.
-/

namespace SPP

/-- Rectangle item: caller-assigned id, integer sides, rotatable flag.
Mirrors `core.Rectangle`. -/
structure Rectangle where
  id : Nat
  w : Nat
  h : Nat
  rotatable : Bool := true
deriving DecidableEq, Repr

/-- Area of a rectangle, mirrors `Rectangle.area`. -/
def Rectangle.area (r : Rectangle) : Nat := r.w * r.h

/-- Placement of a rectangle in the strip, mirrors `core.Placement`. -/
structure Placement where
  rect_id : Nat
  x : Nat
  y : Nat
  w_eff : Nat
  h_eff : Nat
  rotated : Bool := false
deriving DecidableEq, Repr

/-- Forbidden zone `(x, y, w, h)` in strip coordinates. -/
def ForbiddenZone := Nat × Nat × Nat × Nat
deriving DecidableEq, Repr

/-- SPP instance: strip width, rectangle list, kerf and forbidden zones.
Mirrors `core.Instance`. -/
structure Instance where
  W : Nat
  rectangles : List Rectangle
  kerf_delta : Nat := 0
  forbidden_zones : List ForbiddenZone := []
deriving DecidableEq, Repr

/-- `Instance.area_lb`: ceiling of (total rectangle area / W).  The Python
code computes `math.ceil(A / W)`; on the integer inputs used here this is
the exact ceiling division modelled below. -/
def area_lb (inst : Instance) : Nat :=
  ((inst.rectangles.map Rectangle.area).sum + inst.W - 1) / inst.W

/-- `Instance.maxh_lb`: largest `min(h, w)` when rotation is allowed, else
largest `h`.  Python `max` on an empty list raises; the solvers only call
this on non-empty instances, and we model the empty case as 0. -/
def maxh_lb (inst : Instance) (allow_rotation : Bool) : Nat :=
  if allow_rotation then
    (inst.rectangles.map (fun r => min r.h r.w)).foldr max 0
  else
    (inst.rectangles.map (fun r => r.h)).foldr max 0

/-- Strip packing solution, mirrors `core.Solution`. -/
structure Solution where
  H : Nat
  placements : List Placement
  method : String
  optimality : String
deriving DecidableEq, Repr

/-- Separating-axis test between two placements: true when the two boxes
do not strictly overlap (touching edges allowed).  This is the predicate
inside the pair loop of `Solution.check_feasibility`. -/
def sepB (a b : Placement) : Bool :=
  (a.x + a.w_eff ≤ b.x) || (b.x + b.w_eff ≤ a.x) ||
  (a.y + a.h_eff ≤ b.y) || (b.y + b.h_eff ≤ a.y)

/-- The pair loop of `check_feasibility`: `itertools.combinations` visits
each unordered pair once; the check fails when some pair overlaps. -/
def noOverlapPairs : List Placement → Bool
  | [] => true
  | a :: rest => rest.all (fun b => sepB a b) && noOverlapPairs rest

/-- One placement against one forbidden zone: the checker computes the
strict axis-aligned intersection test and fails when they intersect. -/
def zoneFree (p : Placement) (z : ForbiddenZone) : Bool :=
  let (zx, zy, zw, zh) := z
  !(!(p.x + p.w_eff ≤ zx) && !(zx + zw ≤ p.x) &&
    !(p.y + p.h_eff ≤ zy) && !(zy + zh ≤ p.y))

/-- `Solution.check_feasibility`: bounds, id-set equality, pairwise
non-overlap (without kerf) and forbidden-zone freeness.  The `p.x < 0`
and `p.y < 0` guards of the Python code are kept verbatim; over `Nat`
they can never fire, matching the fact that every solver of this code
base produces non-negative coordinates. -/
def check_feasibility (sol : Solution) (inst : Instance) : Bool :=
  sol.placements.all (fun p =>
    !(decide (p.x < 0)) && !(decide (p.y < 0)) &&
    !(decide (inst.W < p.x + p.w_eff)) && !(decide (sol.H < p.y + p.h_eff))) &&
  decide ((inst.rectangles.map Rectangle.id).toFinset
            = (sol.placements.map Placement.rect_id).toFinset) &&
  noOverlapPairs sol.placements &&
  sol.placements.all (fun p => inst.forbidden_zones.all (fun z => zoneFree p z))

/-- `HeuristicSolver._orient`: effective width, effective height and the
rotated flag for a rectangle under the global rotation flag.  With
`prefer_low` the orientation with the smaller height is chosen, ties
broken toward the unrotated orientation. -/
def orient (rect : Rectangle) (allow_rotation : Bool) (prefer_low : Bool) :
    Nat × Nat × Bool :=
  if !allow_rotation || !rect.rotatable then (rect.w, rect.h, false)
  else if prefer_low then
    (if rect.h ≤ rect.w then (rect.w, rect.h, false) else (rect.h, rect.w, true))
  else (rect.w, rect.h, false)

/-- Stable insertion for a descending sort by a `Nat` key; models the
stable behaviour of Python `list.sort(key=..., reverse=True)`. -/
def insertDescBy (key : α → Nat) (a : α) : List α → List α
  | [] => [a]
  | b :: rest => if key a < key b then b :: insertDescBy key a rest else a :: b :: rest

/-- Stable descending sort by a `Nat` key. -/
def sortDescBy (key : α → Nat) : List α → List α
  | [] => []
  | a :: rest => insertDescBy key a (sortDescBy key rest)

/-- Stable insertion for an ascending sort by a `Nat` key; models the
stable behaviour of Python `list.sort(key=...)`. -/
def insertAscBy (key : α → Nat) (a : α) : List α → List α
  | [] => [a]
  | b :: rest => if key b < key a then b :: insertAscBy key a rest else a :: b :: rest

/-- Stable ascending sort by a `Nat` key. -/
def sortAscBy (key : α → Nat) : List α → List α
  | [] => []
  | a :: rest => insertAscBy key a (sortAscBy key rest)

/-- Geometry failure raised by the decoders: rectangle id, the offending
effective width and the strip width, exactly the data carried by the
`ValueError` message of `heuristics.py`. -/
structure GeomError where
  rid : Nat
  width : Nat
  strip_w : Nat
deriving DecidableEq, Repr

/-- State of the NFDH shelf loop: cursor `x`, current shelf baseline and
height, first-in-shelf flag and the accumulated placements. -/
structure NfdhSt where
  x : Nat
  sy : Nat
  sh : Nat
  first : Bool
  ps : List Placement
deriving DecidableEq, Repr

/-- One iteration of the NFDH loop of `HeuristicSolver._nfdh`. -/
def nfdhStep (W d : Nat) (allow_rotation : Bool) (st : NfdhSt)
    (item : Rectangle × Nat) : Except GeomError NfdhSt :=
  let r := item.1
  let o := orient r allow_rotation true
  let w_eff := o.1
  let h_eff := o.2.1
  let rotated := o.2.2
  if W < w_eff then .error ⟨r.id, w_eff, W⟩
  else
    let extra := if st.first then 0 else d
    if st.x + extra + w_eff ≤ W then
      let x' := st.x + (if st.first then 0 else d)
      .ok ⟨x' + w_eff, st.sy, max st.sh h_eff, false,
           st.ps ++ [⟨r.id, x', st.sy, w_eff, h_eff, rotated⟩]⟩
    else
      let sy' := st.sy + st.sh + (if 0 < st.sh then d else 0)
      .ok ⟨w_eff, sy', h_eff, false,
           st.ps ++ [⟨r.id, 0, sy', w_eff, h_eff, rotated⟩]⟩

/-- `HeuristicSolver._nfdh`: orient every rectangle with `prefer_low`,
sort by effective height descending (stable) and run the shelf loop;
the final height is the top of the last shelf. -/
def nfdh (inst : Instance) (allow_rotation : Bool) : Except GeomError Solution :=
  let items0 := inst.rectangles.map (fun r => (r, (orient r allow_rotation true).2.1))
  let items := sortDescBy (fun t => t.2) items0
  (List.foldlM (nfdhStep inst.W inst.kerf_delta allow_rotation)
      ⟨0, 0, 0, true, []⟩ items).map
    (fun st => ⟨st.sy + st.sh, st.ps, "Heuristic-NFDH", "feasible"⟩)

/-- A skyline segment `(x_start, width, height)`. -/
structure Seg where
  x : Nat
  w : Nat
  h : Nat
deriving DecidableEq, Repr

/-- `find_position` of `HeuristicSolver._skyline`: scan all segments wide
enough and keep the leftmost one at minimal height (height first, then
smaller `x_start`). -/
def findPosition (skyline : List Seg) (w_eff : Nat) : Option (Nat × Nat) :=
  skyline.foldl
    (fun best seg =>
      if seg.w < w_eff then best
      else
        match best with
        | none => some (seg.x, seg.h)
        | some (bx, bh) =>
          if seg.h < bh || (seg.h == bh && seg.x < bx) then some (seg.x, seg.h)
          else best)
    none

/-- Splitting of one segment by the covered interval `[x, xend)` in
`update_skyline`: segments disjoint from the interval are kept whole,
overlapped segments are replaced by their uncovered remainders. -/
def splitSeg (x xend : Nat) (s : Seg) : List Seg :=
  if s.x + s.w ≤ x || xend ≤ s.x then [s]
  else
    (if s.x < x then [⟨s.x, x - s.x, s.h⟩] else []) ++
    (if xend < s.x + s.w then [⟨xend, s.x + s.w - xend, s.h⟩] else [])

/-- The split pass of `update_skyline` over the whole profile, in order. -/
def splitAll (x xend : Nat) : List Seg → List Seg
  | [] => []
  | s :: rest => splitSeg x xend s ++ splitAll x xend rest

/-- The merge pass of `update_skyline`: adjacent segments with the same
height whose spans are contiguous are fused.  The Python code folds from
the left over the sorted list; run-merging from either end produces the
same list, and the structural recursion below is used for termination. -/
def mergeSegs : List Seg → List Seg
  | [] => []
  | s :: rest =>
    match mergeSegs rest with
    | [] => [s]
    | t :: ts =>
      if s.h == t.h && s.x + s.w == t.x then ⟨s.x, s.w + t.w, s.h⟩ :: ts
      else s :: t :: ts

/-- `update_skyline`: split overlapped segments into uncovered remainders,
insert the new top segment, sort by `x_start` and merge equal-height
neighbours. -/
def updateSkyline (skyline : List Seg) (x w_eff y h_eff : Nat) : List Seg :=
  mergeSegs (sortAscBy Seg.x (splitAll x (x + w_eff) skyline ++ [⟨x, w_eff, y + h_eff⟩]))

/-- Maximum skyline height, models `max(y for _, _, y in skyline)` on the
never-empty profile of the fallback branch. -/
def maxSegH (skyline : List Seg) : Nat := (skyline.map Seg.h).foldr max 0

/-- Maximum placement top, models
`max((p.y + p.h_eff) for p in placements) if placements else 0`. -/
def maxTop (ps : List Placement) : Nat := (ps.map (fun p => p.y + p.h_eff)).foldr max 0

/-- One iteration of the skyline loop of `HeuristicSolver._skyline`. -/
def skylineStep (W : Nat) (allow_rotation : Bool)
    (st : List Seg × List Placement) (r : Rectangle) :
    Except GeomError (List Seg × List Placement) :=
  let o := orient r allow_rotation true
  let w_eff := o.1
  let h_eff := o.2.1
  let rotated := o.2.2
  if W < w_eff then .error ⟨r.id, w_eff, W⟩
  else
    let pos :=
      match findPosition st.1 w_eff with
      | none => (0, maxSegH st.1)
      | some p => p
    let x := pos.1
    let y := pos.2
    .ok (updateSkyline st.1 x w_eff y h_eff,
         st.2 ++ [⟨r.id, x, y, w_eff, h_eff, rotated⟩])

/-- Sort key of the skyline loop:
`max(r.h, r.w) if allow_rotation else r.h`. -/
def skylineKey (allow_rotation : Bool) (r : Rectangle) : Nat :=
  if allow_rotation then max r.h r.w else r.h

/-- `HeuristicSolver._skyline` (with `guillotine = False`): profile starts
as one full-width segment at height 0; items are processed in descending
key order; the final height is the maximal placement top. -/
def skyline (inst : Instance) (allow_rotation : Bool) : Except GeomError Solution :=
  let rects := sortDescBy (skylineKey allow_rotation) inst.rectangles
  (List.foldlM (skylineStep inst.W allow_rotation) ([⟨0, inst.W, 0⟩], []) rects).map
    (fun st => ⟨maxTop st.2, st.2, "Heuristic-Skyline", "feasible"⟩)

/-- Heuristic policy selector of `HeuristicSolver.solve`. -/
inductive Policy where
  | NFDH
  | Skyline
deriving DecidableEq, Repr

/-- `HeuristicSolver.solve`: NFDH runs the shelf loop; Skyline runs the
profile loop unless the `guillotine` flag forces the reduction to NFDH. -/
def heuristicSolve (inst : Instance) (allow_rotation : Bool) (policy : Policy)
    (guillotine : Bool) : Except GeomError Solution :=
  match policy with
  | .NFDH => nfdh inst allow_rotation
  | .Skyline => if guillotine then nfdh inst allow_rotation else skyline inst allow_rotation

/-- Errors of the metaheuristic decoder: a missing id in the
`id_to_rect` dictionary (Python `KeyError`) or a geometry failure from
the Skyline decode. -/
inductive MetaErr where
  | keyNotFound (rid : Nat)
  | geom (e : GeomError)
deriving DecidableEq, Repr

/-- The `id_to_rect` dictionary lookup of `MetaheuristicSolver._decode`:
`{r.id: r for r in rectangles}` keeps the last rectangle for a duplicate
id, hence the lookup on the reversed list. -/
def id_to_rect (rects : List Rectangle) (rid : Nat) : Option Rectangle :=
  rects.reverse.find? (fun r => r.id == rid)

/-- `MetaheuristicSolver._decode`: zip the permutation with the
orientation bits (the bit itself is never read), rebuild each rectangle
with `rotatable := rotatable and allow_rotation`, build the reordered
temporary instance preserving width/kerf/forbidden zones, and run the
Skyline heuristic on it. -/
def decode (inst : Instance) (allow_rotation : Bool) (strategy : String)
    (perm : List Nat) (orient_bits : List Nat) : Except MetaErr Solution := do
  let rects ← (perm.zip orient_bits).mapM
    (fun rb =>
      match id_to_rect inst.rectangles rb.1 with
      | some r => Except.ok (⟨r.id, r.w, r.h, r.rotatable && allow_rotation⟩ : Rectangle)
      | none => Except.error (MetaErr.keyNotFound rb.1))
  let tmp_inst : Instance :=
    ⟨inst.W, rects, inst.kerf_delta, inst.forbidden_zones⟩
  match skyline tmp_inst allow_rotation with
  | .ok sol =>
    .ok { sol with method := "Meta-" ++ strategy ++ "-SkylineDecode" }
  | .error e => .error (.geom e)

/-- Number of candidate levels of `LevelMilpSolver.solve`:
`L = self.max_levels or n`, so a missing (or zero, Python falsy)
`max_levels` defaults to the item count `n`. -/
def levelL (max_levels : Option Nat) (n : Nat) : Nat :=
  match max_levels with
  | none => n
  | some m => if m = 0 then n else m

/-- `next(r for r in rectangles if r.id == rid)`: first rectangle with a
given id.  The solvers only evaluate it on ids drawn from the rectangle
list, where it is total; the default value models the unreachable case. -/
def rectOf (inst : Instance) (rid : Nat) : Rectangle :=
  (inst.rectangles.find? (fun r => r.id == rid)).getD ⟨0, 0, 0, false⟩

/-- Truth value as a natural number (a set binary MILP variable). -/
def b2n (b : Bool) : Nat := if b then 1 else 0

/-- Truth value as an integer (a set binary MILP variable). -/
def b2i (b : Bool) : Int := if b then 1 else 0

/-- A variable assignment of the shelf/level MILP model: level-active
flags `u`, integer level heights `s`, item/level assignment binaries
`zH` (unrotated) and `zV` (rotated), and the total height `Hv`. -/
structure LevelAssign where
  u : Nat → Bool
  s : Nat → Nat
  zH : Nat → Nat → Bool
  zV : Nat → Nat → Bool
  Hv : Nat

/-- Effective rotated-assignment variable: when rotation is disallowed
the code replaces the `zV` dictionary by constant zeros. -/
def zVeff (allow_rotation : Bool) (a : LevelAssign) (rid ell : Nat) : Bool :=
  allow_rotation && a.zV rid ell

/-- The constraint set of `LevelMilpSolver.solve`: each item assigned to
exactly one level and orientation, width capacity with kerf per level
(Big-M gated by the active flag), per-item height linearization,
non-increasing level heights, total height equal to the sum of level
heights and bounded below by the two lower bounds.  `zV` variables are
created for every item when rotation is allowed; nothing ties them to
the `rotatable` flag. -/
def levelConstraints (inst : Instance) (allow_rotation : Bool) (L : Nat)
    (a : LevelAssign) : Bool :=
  let ids := inst.rectangles.map Rectangle.id
  let d := inst.kerf_delta
  (inst.rectangles.all (fun r =>
    ((List.range L).map
       (fun ell => b2n (a.zH r.id ell) + b2n (zVeff allow_rotation a r.id ell))).sum == 1)) &&
  ((List.range L).all (fun ell =>
    let count : Nat :=
      (ids.map (fun rid => b2n (a.zH rid ell) + b2n (zVeff allow_rotation a rid ell))).sum
    let width : Nat :=
      (ids.map (fun rid =>
        (rectOf inst rid).w * b2n (a.zH rid ell) +
        (rectOf inst rid).h * b2n (zVeff allow_rotation a rid ell))).sum
    decide ((width : Int) + (d : Int) * ((count : Int) - 1)
              ≤ (inst.W : Int) * b2i (a.u ell)))) &&
  ((List.range L).all (fun ell => inst.rectangles.all (fun r =>
    decide (r.h * b2n (a.zH r.id ell) ≤ a.s ell) &&
    decide (r.w * b2n (zVeff allow_rotation a r.id ell) ≤ a.s ell)))) &&
  ((List.range (L - 1)).all (fun ell => decide (a.s (ell + 1) ≤ a.s ell))) &&
  (a.Hv == ((List.range L).map a.s).sum) &&
  decide (area_lb inst ≤ a.Hv) &&
  decide (maxh_lb inst allow_rotation ≤ a.Hv)

/-- Membership test of an item in a level in the decode pass of
`LevelMilpSolver.solve` (a binary read back as `value > 0.5`). -/
def levelOn (allow_rotation : Bool) (a : LevelAssign) (ell rid : Nat) : Bool :=
  a.zH rid ell || (allow_rotation && a.zV rid ell)

/-- Items of a level, in rectangle-list order, as collected by the
decode pass. -/
def levelIdsOn (inst : Instance) (allow_rotation : Bool) (a : LevelAssign)
    (ell : Nat) : List Nat :=
  (inst.rectangles.map Rectangle.id).filter (levelOn allow_rotation a ell)

/-- `eff_h` of the decode pass: the height an item presents in a level
under its chosen orientation. -/
def levelEffH (inst : Instance) (allow_rotation : Bool) (a : LevelAssign)
    (ell rid : Nat) : Nat :=
  if allow_rotation && a.zV rid ell then (rectOf inst rid).w else (rectOf inst rid).h

/-- Lay one level's items left-to-right starting at baseline `y`,
inserting `kerf_delta` gaps between consecutive items; the inner loop of
the decode pass of `LevelMilpSolver.solve`. -/
def levelRow (inst : Instance) (allow_rotation : Bool) (a : LevelAssign)
    (ell y : Nat) : List Nat → Nat → Bool → List Placement
  | [], _, _ => []
  | rid :: rest, x, first =>
    let rect := rectOf inst rid
    let rotated := allow_rotation && a.zV rid ell
    let wv := if rotated then rect.h else rect.w
    let hv := if rotated then rect.w else rect.h
    let x' := x + (if first then 0 else inst.kerf_delta)
    ⟨rid, x', y, wv, hv, rotated⟩ :: levelRow inst allow_rotation a ell y rest (x' + wv) false

/-- The decode pass of `LevelMilpSolver.solve`: walk the levels in
order, skip levels with zero height, place each level's items (sorted by
effective height descending) left-to-right and advance the baseline by
the level height plus `kerf_delta`. -/
def levelDecode (inst : Instance) (allow_rotation : Bool) (L : Nat)
    (a : LevelAssign) : List Placement :=
  ((List.range L).foldl
    (fun (st : Nat × List Placement) ell =>
      let s_val := a.s ell
      if s_val = 0 then st
      else
        let sorted := sortDescBy (levelEffH inst allow_rotation a ell)
          (levelIdsOn inst allow_rotation a ell)
        let row := levelRow inst allow_rotation a ell st.1 sorted 0 true
        (st.1 + s_val + inst.kerf_delta, st.2 ++ row))
    (0, [])).2

/-- `H_val` returned by `LevelMilpSolver.solve`: the maximal placement
top of the decoded layout (default 0). -/
def levelHval (inst : Instance) (allow_rotation : Bool) (L : Nat)
    (a : LevelAssign) : Nat :=
  maxTop (levelDecode inst allow_rotation L a)

/-- A variable assignment of the coordinate MILP model: per-item
coordinates and rotation binaries, the height variable, the non-overlap
direction selectors per ordered-as-generated pair and the forbidden-zone
selectors per item/zone pair. -/
structure CoordAssign where
  x : Nat → Nat
  y : Nat → Nat
  r : Nat → Bool
  Hv : Nat
  bL : Nat → Nat → Bool
  bR : Nat → Nat → Bool
  bU : Nat → Nat → Bool
  bD : Nat → Nat → Bool
  fzL : Nat → Nat → Bool
  fzR : Nat → Nat → Bool
  fzU : Nat → Nat → Bool
  fzD : Nat → Nat → Bool

/-- Effective width of an item as the linear expression
`(1 - r) * w + r * h` evaluated on a binary assignment; rotation only
enters for rotatable items when globally allowed. -/
def wEffA (allow_rotation : Bool) (a : CoordAssign) (rect : Rectangle) : Nat :=
  if !allow_rotation || !rect.rotatable then rect.w
  else if a.r rect.id then rect.h else rect.w

/-- Effective height of an item on a binary assignment. -/
def hEffA (allow_rotation : Bool) (a : CoordAssign) (rect : Rectangle) : Nat :=
  if !allow_rotation || !rect.rotatable then rect.h
  else if a.r rect.id then rect.w else rect.h

/-- `itertools.combinations(ids, 2)`: all unordered pairs in generation
order. -/
def pairsOf : List Nat → List (Nat × Nat)
  | [] => []
  | i :: rest => rest.map (fun j => (i, j)) ++ pairsOf rest

/-- `max(rectangles, key=...)`: Python `max` keeps the first element
attaining the maximal key. -/
def tallestRect (inst : Instance) (allow_rotation : Bool) : Option Rectangle :=
  inst.rectangles.foldl
    (fun best rc =>
      match best with
      | none => some rc
      | some b =>
        if (if allow_rotation then max rc.h rc.w else rc.h) >
           (if allow_rotation then max b.h b.w else b.h) then some rc else best)
    none

/-- The constraint set of `MilpSolver.solve` (coordinate model): strip
bounds, per-pair 4-way Big-M non-overlap disjunctions with kerf, per
item/zone 4-way Big-M disjunctions, the two lower bounds on `H` and the
symmetry-breaking anchor of the tallest item at `x = 0`.  The Big-M
magnitudes `Mx`, `My` are parameters (the code derives them from the
mode and the heuristic upper bound); the optional warm-start guide box
only adds further constraints and is not needed by the theorems below. -/
def coordConstraints (inst : Instance) (allow_rotation : Bool) (Mx My : Int)
    (a : CoordAssign) : Bool :=
  let ids := inst.rectangles.map Rectangle.id
  let d := inst.kerf_delta
  (inst.rectangles.all (fun rect =>
    decide (a.x rect.id + wEffA allow_rotation a rect ≤ inst.W) &&
    decide (a.y rect.id + hEffA allow_rotation a rect ≤ a.Hv))) &&
  ((pairsOf ids).all (fun ij =>
    let i := ij.1
    let j := ij.2
    let Ri := rectOf inst i
    let Rj := rectOf inst j
    let wi : Int := wEffA allow_rotation a Ri
    let hi : Int := hEffA allow_rotation a Ri
    let wj : Int := wEffA allow_rotation a Rj
    let hj : Int := hEffA allow_rotation a Rj
    (b2n (a.bL i j) + b2n (a.bR i j) + b2n (a.bU i j) + b2n (a.bD i j) == 1) &&
    decide ((a.x i : Int) + wi + d ≤ (a.x j : Int) + Mx * (1 - b2i (a.bL i j))) &&
    decide ((a.x j : Int) + wj + d ≤ (a.x i : Int) + Mx * (1 - b2i (a.bR i j))) &&
    decide ((a.y i : Int) + hi + d ≤ (a.y j : Int) + My * (1 - b2i (a.bD i j))) &&
    decide ((a.y j : Int) + hj + d ≤ (a.y i : Int) + My * (1 - b2i (a.bU i j))))) &&
  (ids.all (fun rid =>
    inst.forbidden_zones.enum.all (fun zk =>
      let k := zk.1
      let z := zk.2
      let (zx, zy, zw, zh) := z
      let Rct := rectOf inst rid
      let wi : Int := wEffA allow_rotation a Rct
      let hi : Int := hEffA allow_rotation a Rct
      (b2n (a.fzL rid k) + b2n (a.fzR rid k) + b2n (a.fzU rid k) + b2n (a.fzD rid k) == 1) &&
      decide ((a.x rid : Int) + wi ≤ (zx : Int) + Mx * (1 - b2i (a.fzL rid k))) &&
      decide ((zx : Int) + (zw : Int) ≤ (a.x rid : Int) + Mx * (1 - b2i (a.fzR rid k))) &&
      decide ((a.y rid : Int) + hi + d ≤ (zy : Int) + My * (1 - b2i (a.fzD rid k))) &&
      decide ((zy : Int) + (zh : Int) + d ≤ (a.y rid : Int) + My * (1 - b2i (a.fzU rid k)))))) &&
  decide (area_lb inst ≤ a.Hv) &&
  decide (maxh_lb inst allow_rotation ≤ a.Hv) &&
  (match tallestRect inst allow_rotation with
   | some t => a.x t.id == 0
   | none => true)

/-- The decode pass of `MilpSolver.solve`: read back coordinates and the
rotation binary; non-rotatable items (or rotation globally disallowed)
are decoded with `rotated = False` unconditionally. -/
def coordDecode (inst : Instance) (allow_rotation : Bool) (a : CoordAssign) :
    List Placement :=
  inst.rectangles.map (fun rect =>
    if allow_rotation && rect.rotatable then
      ⟨rect.id, a.x rect.id, a.y rect.id,
       if a.r rect.id then rect.h else rect.w,
       if a.r rect.id then rect.w else rect.h,
       a.r rect.id⟩
    else ⟨rect.id, a.x rect.id, a.y rect.id, rect.w, rect.h, false⟩)

/-- `H_val` of `MilpSolver.solve`: `pulp.value(H) or max(tops)` — the
falsy value 0 falls back to the maximal placement top. -/
def coordHval (inst : Instance) (allow_rotation : Bool) (a : CoordAssign) : Nat :=
  if a.Hv ≠ 0 then a.Hv else maxTop (coordDecode inst allow_rotation a)

/-- Python list indexing: non-negative indices address from the front
and raise `IndexError` (here: `none`) beyond the length; negative
indices address from the back. -/
def pyGet (l : List α) (i : Int) : Option α :=
  if 0 ≤ i then l.get? i.toNat
  else if i.natAbs ≤ l.length then l.get? (l.length - i.natAbs) else none

/-- The warm-start lookup `self.instance.rectangles[rid-1]` of
`MilpSolver.solve`: a positional access with the id used as index. -/
def warmStartLookup (inst : Instance) (rid : Nat) : Option Rectangle :=
  pyGet inst.rectangles ((rid : Int) - 1)

/-- The warm-start loop of `MilpSolver.solve` raises `IndexError` when
rotation is allowed and some rectangle id, used as a positional index,
falls outside the list (every id has a seeding placement, since the
Skyline seed places every rectangle). -/
def warmStartRaises (inst : Instance) : Bool :=
  (inst.rectangles.map Rectangle.id).any (fun rid => (warmStartLookup inst rid).isNone)

/-! Specification-side predicates used to state and prove the
properties of the embedded algorithms. -/

/-- Propositional separating-axis relation between two placements. -/
def sepP (a b : Placement) : Prop :=
  a.x + a.w_eff ≤ b.x ∨ b.x + b.w_eff ≤ a.x ∨
  a.y + a.h_eff ≤ b.y ∨ b.y + b.h_eff ≤ a.y

instance (a b : Placement) : Decidable (sepP a b) := by
  unfold sepP
  infer_instance

/-- A segment list tiles the interval `[pos, stop)`: the segments appear
in order, each has positive width, each starts where the previous one
ended, the first starts at `pos` and the last ends at `stop`.  This is
the well-formedness core of the skyline profile. -/
def tiles (pos stop : Nat) : List Seg → Bool
  | [] => pos == stop
  | s :: rest => (s.x == pos) && (1 ≤ s.w) && tiles (pos + s.w) stop rest

/-- Skyline profile invariant: the profile tiles `[0, W)` and no two
adjacent segments share the same height (they have been merged). -/
def skylineWF (W : Nat) (segs : List Seg) : Prop :=
  tiles 0 W segs = true ∧ List.Chain' (fun s t => s.h ≠ t.h) segs

instance (W : Nat) (segs : List Seg) : Decidable (skylineWF W segs) :=
  inferInstanceAs (Decidable (tiles 0 W segs = true ∧
    List.Chain' (fun s t : Seg => s.h ≠ t.h) segs))

/-- Relation between a rectangle and the placement the heuristic
decoders produce for it. -/
def placedRel (allow_rotation : Bool) (r : Rectangle) (q : Placement) : Prop :=
  q.rect_id = r.id ∧ q.w_eff = (orient r allow_rotation true).1 ∧
  q.h_eff = (orient r allow_rotation true).2.1 ∧
  q.rotated = (orient r allow_rotation true).2.2

/-- Unit cells covered by a placement, for the area argument. -/
def cells (p : Placement) : Finset (Nat × Nat) :=
  Finset.Ico p.x (p.x + p.w_eff) ×ˢ Finset.Ico p.y (p.y + p.h_eff)

/-- Invariant of the NFDH shelf loop.  Every placement fits the strip
width, tops stay below the running shelf top, every placement is either
on the current shelf left of the cursor or entirely below the current
baseline, placements are pairwise separated, a fresh state is empty, the
last placement closes at the cursor on the current baseline, and
consecutive placements are either laid side by side with a `d` gap or
start a new shelf at `x = 0`. -/
structure NfdhInv (W d : Nat) (st : NfdhSt) : Prop where
  inW : ∀ p ∈ st.ps, p.x + p.w_eff ≤ W
  topLe : ∀ p ∈ st.ps, p.y + p.h_eff ≤ st.sy + st.sh
  shelf : ∀ p ∈ st.ps, (p.y = st.sy ∧ p.x + p.w_eff ≤ st.x) ∨ p.y + p.h_eff ≤ st.sy
  sep : List.Pairwise sepP st.ps
  fresh : st.first = true → st.ps = [] ∧ st.x = 0
  lastAt : ∀ p, st.ps.getLast? = some p → p.y = st.sy ∧ p.x + p.w_eff = st.x
  chain : List.Chain'
    (fun p q => (q.y = p.y ∧ q.x = p.x + p.w_eff + d) ∨ q.x = 0) st.ps

/-- Invariant of the skyline loop: the profile tiles the strip, every
segment overlapping a placement horizontally lies at or above that
placement's top (the profile dominates the packing), placements fit the
strip width and are pairwise separated. -/
structure SkyInv (W : Nat) (st : List Seg × List Placement) : Prop where
  wf : tiles 0 W st.1 = true
  dom : ∀ p ∈ st.2, ∀ s ∈ st.1, ∀ t, s.x ≤ t → t < s.x + s.w →
    p.x ≤ t → t < p.x + p.w_eff → p.y + p.h_eff ≤ s.h
  inW : ∀ p ∈ st.2, p.x + p.w_eff ≤ W
  wpos : ∀ p ∈ st.2, 1 ≤ p.w_eff
  sep : List.Pairwise sepP st.2

/-! Concrete instances and assignments used by the closed theorems. -/

/-- One 4x3 rectangle with a forbidden zone covering the strip bottom. -/
def instZone : Instance := ⟨10, [⟨1, 4, 3, true⟩], 0, [(0, 0, 10, 1)]⟩

/-- Scenario A: three rectangles, strip width 10, no kerf, no zones. -/
def instA : Instance := ⟨10, [⟨1, 4, 3, true⟩, ⟨2, 4, 3, true⟩, ⟨3, 2, 6, true⟩], 0, []⟩

/-- A rotatable rectangle whose smaller side fits the strip but whose
height-minimizing orientation is wider than the strip. -/
def instTall : Instance := ⟨10, [⟨1, 3, 12, true⟩], 0, []⟩

/-- A single rotatable rectangle for the decoder experiments. -/
def instBit : Instance := ⟨10, [⟨1, 3, 5, true⟩], 0, []⟩

/-- A non-rotatable rectangle that only fits the strip when rotated. -/
def instLvl : Instance := ⟨3, [⟨1, 5, 2, false⟩], 0, []⟩

/-- A satisfying assignment of the level model on `instLvl` that
assigns the (non-rotatable) rectangle rotated to level 0. -/
def assignLvl : LevelAssign :=
  ⟨fun _ => true, fun _ => 5, fun _ _ => false, fun _ _ => true, 5⟩

/-- Scenario E: kerf 2, two 4x3 rectangles, strip width 10. -/
def instE : Instance := ⟨10, [⟨1, 4, 3, true⟩, ⟨2, 4, 3, true⟩], 2, []⟩

/-- An instance whose single rectangle id exceeds the list length. -/
def instGapId : Instance := ⟨10, [⟨5, 2, 2, true⟩], 0, []⟩

/-- An instance with ids exactly 1..n in list order. -/
def instSeqId : Instance := ⟨10, [⟨1, 2, 2, true⟩, ⟨2, 3, 1, false⟩], 0, []⟩

/-- The processing order of the NFDH loop: rectangles sorted by
effective height (prefer-low orientation) descending. -/
def nfdhOrder (inst : Instance) (allow_rotation : Bool) : List Rectangle :=
  (sortDescBy (fun t => t.2)
    (inst.rectangles.map (fun r => (r, (orient r allow_rotation true).2.1)))).map Prod.fst

/-- The processing order of the skyline loop. -/
def skylineOrder (inst : Instance) (allow_rotation : Bool) : List Rectangle :=
  sortDescBy (skylineKey allow_rotation) inst.rectangles

end SPP

namespace SPP

/-! Basic bridging lemmas. -/

lemma sepB_iff {a b : Placement} : sepB a b = true ↔ sepP a b := by
  simp only [sepB, sepP, Bool.or_eq_true, decide_eq_true_eq]
  tauto

lemma noOverlapPairs_iff {ps : List Placement} :
    noOverlapPairs ps = true ↔ List.Pairwise sepP ps := by
  induction ps with
  | nil => simp [noOverlapPairs]
  | cons a rest ih =>
    simp [noOverlapPairs, List.pairwise_cons, ih, sepB_iff]

lemma insertDescBy_perm {α : Type} (key : α → Nat) (a : α) (l : List α) :
    (insertDescBy key a l).Perm (a :: l) := by
  induction l with
  | nil => simp [insertDescBy]
  | cons b rest ih =>
    unfold insertDescBy
    split
    · exact (ih.cons b).trans (List.Perm.swap a b rest)
    · exact List.Perm.refl _

lemma sortDescBy_perm {α : Type} (key : α → Nat) (l : List α) :
    (sortDescBy key l).Perm l := by
  induction l with
  | nil => exact List.Perm.refl _
  | cons a rest ih =>
    exact (insertDescBy_perm key a (sortDescBy key rest)).trans (ih.cons a)

lemma forall₂_map_eq {α β : Type} {R : α → β → Prop} (f : α → Nat) (g : β → Nat)
    {l : List α} {m : List β} (h : List.Forall₂ R l m)
    (hfg : ∀ a b, R a b → f a = g b) : l.map f = m.map g := by
  induction h with
  | nil => rfl
  | cons hab _ ih => simp [ih, hfg _ _ hab]

lemma orient_area (r : Rectangle) (allow prefer : Bool) :
    (orient r allow prefer).1 * (orient r allow prefer).2.1 = r.w * r.h := by
  unfold orient
  split
  · rfl
  · split
    · split <;> simp [Nat.mul_comm]
    · rfl

lemma orient_h_min (r : Rectangle) (allow : Bool) :
    min r.h r.w ≤ (orient r allow true).2.1 := by
  unfold orient
  split
  · exact min_le_left _ _
  · split
    · split
      · exact min_le_left _ _
      · exact min_le_right _ _
    · exact min_le_left _ _

lemma orient_h_noRot (r : Rectangle) (prefer : Bool) :
    (orient r false prefer).2.1 = r.h := by
  simp [orient]

lemma orient_unrotatable (r : Rectangle) (allow prefer : Bool)
    (h : r.rotatable = false) : orient r allow prefer = (r.w, r.h, false) := by
  simp [orient, h]

lemma orient_w_pos (r : Rectangle) (allow : Bool) (hw : 0 < r.w) (hh : 0 < r.h) :
    0 < (orient r allow true).1 := by
  unfold orient
  split
  · exact hw
  · split
    · split
      · exact hw
      · exact hh
    · exact hw

lemma orient_h_pos (r : Rectangle) (allow : Bool) (hw : 0 < r.w) (hh : 0 < r.h) :
    0 < (orient r allow true).2.1 := by
  unfold orient
  split
  · exact hh
  · split
    · split
      · exact hh
      · exact hw
    · exact hh

lemma maxTop_mem {ps : List Placement} {p : Placement} (h : p ∈ ps) :
    p.y + p.h_eff ≤ maxTop ps := by
  induction ps with
  | nil => cases h
  | cons a rest ih =>
    rcases List.mem_cons.mp h with h | h
    · subst h; exact Nat.le_max_left _ _
    · exact le_trans (ih h) (Nat.le_max_right _ _)

lemma foldr_max_append (A B : List Nat) :
    (A ++ B).foldr max 0 = max (A.foldr max 0) (B.foldr max 0) := by
  induction A with
  | nil => simp
  | cons a rest ih =>
    simp only [List.cons_append, List.foldr_cons, ih]
    exact (Nat.max_assoc _ _ _).symm

lemma maxTop_append (ps qs : List Placement) :
    maxTop (ps ++ qs) = max (maxTop ps) (maxTop qs) := by
  unfold maxTop
  rw [List.map_append, foldr_max_append]

lemma maxSegH_mem {segs : List Seg} {s : Seg} (h : s ∈ segs) : s.h ≤ maxSegH segs := by
  induction segs with
  | nil => cases h
  | cons a rest ih =>
    rcases List.mem_cons.mp h with h | h
    · subst h; exact Nat.le_max_left _ _
    · exact le_trans (ih h) (Nat.le_max_right _ _)

lemma ceil_div_le {W A H : Nat} (hW : 0 < W) (h : A ≤ W * H) :
    (A + W - 1) / W ≤ H := by
  have hmul : (H + 1) * W = W * H + W := by ring
  have h2 : (A + W - 1) / W < H + 1 := by
    rw [Nat.div_lt_iff_lt_mul hW, hmul]
    omega
  omega

/-! Cell-counting area argument: pairwise separated boxes inside the
strip cover disjoint unit-cell sets, so total area is at most `W * H`. -/

lemma cells_card (p : Placement) : (cells p).card = p.w_eff * p.h_eff := by
  simp [cells]

lemma cells_disjoint {a b : Placement} (h : sepP a b) :
    Disjoint (cells a) (cells b) := by
  rw [Finset.disjoint_left]
  intro c hca hcb
  simp only [cells, Finset.mem_product, Finset.mem_Ico] at hca hcb
  rcases h with h | h | h | h <;> omega

lemma sum_area_le_card : ∀ (ps : List Placement) (s : Finset (Nat × Nat)),
    List.Pairwise sepP ps → (∀ p ∈ ps, cells p ⊆ s) →
    (ps.map (fun p => p.w_eff * p.h_eff)).sum ≤ s.card := by
  intro ps
  induction ps with
  | nil => intro s _ _; simp
  | cons a rest ih =>
    intro s hpw hsub
    have hd : ∀ p ∈ rest, Disjoint (cells a) (cells p) :=
      fun p hp => cells_disjoint ((List.pairwise_cons.mp hpw).1 p hp)
    have hsub2 : ∀ p ∈ rest, cells p ⊆ s \ cells a := by
      intro p hp c hc
      rw [Finset.mem_sdiff]
      refine ⟨hsub p (by simp [hp]) hc, ?_⟩
      intro hca
      exact (Finset.disjoint_left.mp (hd p hp)) hca hc
    have h1 := ih (s \ cells a) (List.pairwise_cons.mp hpw).2 hsub2
    have h2 : (cells a).card ≤ s.card := Finset.card_le_card (hsub a (by simp))
    have h3 : (s \ cells a).card = s.card - (cells a).card :=
      Finset.card_sdiff (hsub a (by simp))
    simp only [List.map_cons, List.sum_cons]
    rw [cells_card] at *
    omega

lemma packing_area {W H : Nat} {ps : List Placement}
    (hsep : List.Pairwise sepP ps)
    (hin : ∀ p ∈ ps, p.x + p.w_eff ≤ W ∧ p.y + p.h_eff ≤ H) :
    (ps.map (fun p => p.w_eff * p.h_eff)).sum ≤ W * H := by
  have h := sum_area_le_card ps (Finset.Ico 0 W ×ˢ Finset.Ico 0 H) hsep ?_
  · calc (ps.map (fun p => p.w_eff * p.h_eff)).sum
        ≤ (Finset.Ico 0 W ×ˢ Finset.Ico 0 H).card := h
      _ = W * H := by simp
  · intro p hp c hc
    simp only [cells, Finset.mem_product, Finset.mem_Ico] at hc ⊢
    have := hin p hp
    omega

/-! NFDH shelf loop: invariant preservation and packaging. -/

lemma nfdhStep_ok {W d : Nat} {allow : Bool} {st st' : NfdhSt} {r : Rectangle} {k : Nat}
    (hinv : NfdhInv W d st)
    (hstep : nfdhStep W d allow st (r, k) = .ok st') :
    NfdhInv W d st' ∧ ∃ q, st'.ps = st.ps ++ [q] ∧ placedRel allow r q := by
  unfold nfdhStep at hstep
  dsimp only at hstep
  by_cases hg : W < (orient r allow true).1
  · rw [if_pos hg] at hstep
    cases hstep
  rw [if_neg hg] at hstep
  set o := orient r allow true with ho
  by_cases hc : st.x + (if st.first then 0 else d) + o.1 ≤ W
  · rw [if_pos hc] at hstep
    injection hstep with hstep
    subst hstep
    set x' := st.x + (if st.first then 0 else d) with hx'
    set q : Placement := ⟨r.id, x', st.sy, o.1, o.2.1, o.2.2⟩ with hq
    have hxle : st.x ≤ x' := by rw [hx']; omega
    refine ⟨⟨?_, ?_, ?_, ?_, ?_, ?_, ?_⟩, q, rfl, rfl, rfl, rfl, rfl⟩
    · intro p hp
      rcases List.mem_append.mp hp with hp | hp
      · exact hinv.inW p hp
      · rw [List.mem_singleton.mp hp]
        show q.x + q.w_eff ≤ W
        simp only [hq]
        omega
    · intro p hp
      rcases List.mem_append.mp hp with hp | hp
      · have h1 := hinv.topLe p hp
        have h2 : st.sh ≤ max st.sh o.2.1 := Nat.le_max_left _ _
        show p.y + p.h_eff ≤ st.sy + max st.sh o.2.1
        omega
      · rw [List.mem_singleton.mp hp]
        show st.sy + o.2.1 ≤ st.sy + max st.sh o.2.1
        have := Nat.le_max_right st.sh o.2.1
        omega
    · intro p hp
      rcases List.mem_append.mp hp with hp | hp
      · rcases hinv.shelf p hp with ⟨h1, h2⟩ | h1
        · exact Or.inl ⟨h1, by show p.x + p.w_eff ≤ x' + o.1; omega⟩
        · exact Or.inr h1
      · rw [List.mem_singleton.mp hp]
        exact Or.inl ⟨rfl, le_refl _⟩
    · refine List.pairwise_append.mpr ⟨hinv.sep, List.pairwise_singleton _ _, ?_⟩
      intro p hp q0 hq0
      rw [List.mem_singleton.mp hq0]
      rcases hinv.shelf p hp with ⟨h1, h2⟩ | h1
      · exact Or.inl (by show p.x + p.w_eff ≤ q.x; simp only [hq]; omega)
      · exact Or.inr (Or.inr (Or.inl h1))
    · intro h
      simp at h
    · intro p hp
      rw [List.getLast?_concat] at hp
      injection hp with hp
      subst hp
      exact ⟨rfl, rfl⟩
    · refine List.chain'_append.mpr ⟨hinv.chain, List.chain'_singleton _, ?_⟩
      intro p0 hp0 q0 hq0
      simp only [List.head?_cons, Option.mem_def, Option.some.injEq] at hq0
      subst hq0
      have hlast := hinv.lastAt p0 hp0
      have hne : st.first = false := by
        by_contra hb
        have hfirst : st.first = true := by
          cases hsf : st.first
          · exact absurd hsf hb
          · rfl
        have := (hinv.fresh hfirst).1
        rw [this] at hp0
        simp at hp0
      refine Or.inl ⟨hlast.1.symm, ?_⟩
      show x' = p0.x + p0.w_eff + d
      rw [hx', hne]
      simp
      omega
  · rw [if_neg hc] at hstep
    injection hstep with hstep
    subst hstep
    set sy' := st.sy + st.sh + (if 0 < st.sh then d else 0) with hsy'
    set q : Placement := ⟨r.id, 0, sy', o.1, o.2.1, o.2.2⟩ with hq
    have hsyle : st.sy + st.sh ≤ sy' := by rw [hsy']; omega
    refine ⟨⟨?_, ?_, ?_, ?_, ?_, ?_, ?_⟩, q, rfl, rfl, rfl, rfl, rfl⟩
    · intro p hp
      rcases List.mem_append.mp hp with hp | hp
      · exact hinv.inW p hp
      · rw [List.mem_singleton.mp hp]
        show 0 + o.1 ≤ W
        omega
    · intro p hp
      rcases List.mem_append.mp hp with hp | hp
      · have h1 := hinv.topLe p hp
        show p.y + p.h_eff ≤ sy' + o.2.1
        omega
      · rw [List.mem_singleton.mp hp]
    · intro p hp
      rcases List.mem_append.mp hp with hp | hp
      · exact Or.inr (le_trans (hinv.topLe p hp) hsyle)
      · rw [List.mem_singleton.mp hp]
        exact Or.inl ⟨rfl, by show 0 + o.1 ≤ o.1; omega⟩
    · refine List.pairwise_append.mpr ⟨hinv.sep, List.pairwise_singleton _ _, ?_⟩
      intro p hp q0 hq0
      rw [List.mem_singleton.mp hq0]
      refine Or.inr (Or.inr (Or.inl ?_))
      show p.y + p.h_eff ≤ sy'
      exact le_trans (hinv.topLe p hp) hsyle
    · intro h
      simp at h
    · intro p hp
      rw [List.getLast?_concat] at hp
      injection hp with hp
      subst hp
      exact ⟨rfl, by show (0 : Nat) + o.1 = o.1; omega⟩
    · refine List.chain'_append.mpr ⟨hinv.chain, List.chain'_singleton _, ?_⟩
      intro p0 _ q0 hq0
      simp only [List.head?_cons, Option.mem_def, Option.some.injEq] at hq0
      subst hq0
      exact Or.inr rfl

lemma nfdh_foldInv {W d : Nat} {allow : Bool} :
    ∀ (items : List (Rectangle × Nat)) (st st' : NfdhSt),
    NfdhInv W d st →
    List.foldlM (nfdhStep W d allow) st items = .ok st' →
    NfdhInv W d st' ∧ ∃ qs, st'.ps = st.ps ++ qs ∧
      List.Forall₂ (fun (it : Rectangle × Nat) q => placedRel allow it.1 q) items qs := by
  intro items
  induction items with
  | nil =>
    intro st st' hinv hfold
    simp only [List.foldlM] at hfold
    injection hfold with hfold
    subst hfold
    exact ⟨hinv, [], by simp, List.Forall₂.nil⟩
  | cons it rest ih =>
    intro st st' hinv hfold
    rw [show List.foldlM (nfdhStep W d allow) st (it :: rest)
          = nfdhStep W d allow st it >>= fun s1 => List.foldlM (nfdhStep W d allow) s1 rest
        from by simp [List.foldlM]] at hfold
    cases hs : nfdhStep W d allow st it with
    | error e =>
      rw [hs] at hfold
      cases hfold
    | ok st1 =>
      rw [hs] at hfold
      obtain ⟨r, k⟩ := it
      obtain ⟨hinv1, q, hps1, hrel⟩ := nfdhStep_ok hinv hs
      obtain ⟨hinv2, qs, hps2, hrel2⟩ := ih st1 st' hinv1 hfold
      refine ⟨hinv2, q :: qs, ?_, List.Forall₂.cons hrel hrel2⟩
      rw [hps2, hps1, List.append_assoc]
      rfl

lemma nfdhInv_init {W d : Nat} : NfdhInv W d ⟨0, 0, 0, true, []⟩ := by
  refine ⟨?_, ?_, ?_, ?_, ?_, ?_, ?_⟩ <;> simp

lemma nfdh_ok {inst : Instance} {allow : Bool} {sol : Solution}
    (h : nfdh inst allow = .ok sol) :
    ∃ st : NfdhSt, NfdhInv inst.W inst.kerf_delta st ∧
      sol = ⟨st.sy + st.sh, st.ps, "Heuristic-NFDH", "feasible"⟩ ∧
      List.Forall₂ (placedRel allow) (nfdhOrder inst allow) st.ps := by
  simp only [nfdh] at h
  cases hf : List.foldlM (nfdhStep inst.W inst.kerf_delta allow) ⟨0, 0, 0, true, []⟩
      (sortDescBy (fun t => t.2)
        (inst.rectangles.map (fun r => (r, (orient r allow true).2.1)))) with
  | error e =>
    rw [hf] at h
    cases h
  | ok st =>
    rw [hf] at h
    simp only [Except.map] at h
    injection h with h
    obtain ⟨hinv, qs, hps, hrel⟩ := nfdh_foldInv _ _ _ nfdhInv_init hf
    refine ⟨st, hinv, h.symm, ?_⟩
    have hq : st.ps = qs := by rw [hps]; rfl
    rw [hq]
    unfold nfdhOrder
    exact (List.forall₂_map_left_iff).mpr hrel

lemma nfdhOrder_perm (inst : Instance) (allow : Bool) :
    (nfdhOrder inst allow).Perm inst.rectangles := by
  unfold nfdhOrder
  have h1 := sortDescBy_perm (fun t : Rectangle × Nat => t.2)
    (inst.rectangles.map (fun r => (r, (orient r allow true).2.1)))
  have h2 := h1.map Prod.fst
  rw [List.map_map] at h2
  have h3 : (Prod.fst ∘ fun r : Rectangle => (r, (orient r allow true).2.1)) = id := rfl
  rw [h3, List.map_id] at h2
  exact h2

/-! Skyline profile machinery: tiling, split, sort and merge lemmas. -/

lemma tiles_nil_iff {pos stop : Nat} : tiles pos stop [] = true ↔ pos = stop := by
  simp [tiles]

lemma tiles_cons_iff {pos stop : Nat} {s : Seg} {rest : List Seg} :
    tiles pos stop (s :: rest) = true ↔
      s.x = pos ∧ 1 ≤ s.w ∧ tiles (pos + s.w) stop rest = true := by
  simp [tiles]
  tauto

lemma tiles_le {segs : List Seg} : ∀ {pos stop : Nat},
    tiles pos stop segs = true → pos ≤ stop := by
  induction segs with
  | nil =>
    intro pos stop h
    have := tiles_nil_iff.mp h
    omega
  | cons s rest ih =>
    intro pos stop h
    obtain ⟨h1, h2, h3⟩ := tiles_cons_iff.mp h
    have := ih h3
    omega

lemma tiles_bounds {segs : List Seg} : ∀ {pos stop : Nat},
    tiles pos stop segs = true →
    ∀ s ∈ segs, pos ≤ s.x ∧ s.x + s.w ≤ stop ∧ 1 ≤ s.w := by
  induction segs with
  | nil => intro pos stop _ s hs; cases hs
  | cons a rest ih =>
    intro pos stop h s hs
    obtain ⟨h1, h2, h3⟩ := tiles_cons_iff.mp h
    have hle := tiles_le h3
    rcases List.mem_cons.mp hs with hs | hs
    · subst hs; omega
    · have := ih h3 s hs
      omega

lemma tiles_cover {segs : List Seg} : ∀ {pos stop : Nat},
    tiles pos stop segs = true →
    ∀ t, pos ≤ t → t < stop → ∃ s ∈ segs, s.x ≤ t ∧ t < s.x + s.w := by
  induction segs with
  | nil =>
    intro pos stop h t h1 h2
    rw [tiles_nil_iff.mp h] at h1
    omega
  | cons a rest ih =>
    intro pos stop h t h1 h2
    obtain ⟨ha1, ha2, ha3⟩ := tiles_cons_iff.mp h
    by_cases hc : t < pos + a.w
    · exact ⟨a, List.mem_cons_self _ _, by omega, by omega⟩
    · obtain ⟨s, hs, hx, hw⟩ := ih ha3 t (by omega) h2
      exact ⟨s, List.mem_cons_of_mem _ hs, hx, hw⟩

lemma tiles_append {A : List Seg} : ∀ {B : List Seg} {pos mid stop : Nat},
    tiles pos mid A = true → tiles mid stop B = true →
    tiles pos stop (A ++ B) = true := by
  induction A with
  | nil =>
    intro B pos mid stop hA hB
    rw [tiles_nil_iff.mp hA]
    exact hB
  | cons a rest ih =>
    intro B pos mid stop hA hB
    obtain ⟨h1, h2, h3⟩ := tiles_cons_iff.mp hA
    exact tiles_cons_iff.mpr ⟨h1, h2, ih h3 hB⟩

lemma tiles_pairwise {segs : List Seg} : ∀ {pos stop : Nat},
    tiles pos stop segs = true →
    List.Pairwise (fun a b : Seg => a.x < b.x) segs := by
  induction segs with
  | nil => intro _ _ _; exact List.Pairwise.nil
  | cons a rest ih =>
    intro pos stop h
    obtain ⟨h1, h2, h3⟩ := tiles_cons_iff.mp h
    refine List.pairwise_cons.mpr ⟨?_, ih h3⟩
    intro b hb
    have := tiles_bounds h3 b hb
    omega

lemma splitSeg_mem {x xend : Nat} {a p : Seg} (hp : p ∈ splitSeg x xend a) :
    p.h = a.h ∧ a.x ≤ p.x ∧ p.x + p.w ≤ a.x + a.w ∧
      (p.x + p.w ≤ x ∨ xend ≤ p.x) := by
  unfold splitSeg at hp
  split at hp
  case isTrue hcond =>
    simp only [Bool.or_eq_true, decide_eq_true_eq] at hcond
    rw [List.mem_singleton.mp hp]
    exact ⟨rfl, le_refl _, le_refl _, hcond⟩
  case isFalse hcond =>
    simp only [Bool.or_eq_true, decide_eq_true_eq, not_or, not_le] at hcond
    rcases List.mem_append.mp hp with hp | hp
    · split at hp
      case isTrue h1 =>
        rw [List.mem_singleton.mp hp]
        refine ⟨rfl, le_refl _, ?_, Or.inl ?_⟩ <;> simp <;> omega
      case isFalse h1 => cases hp
    · split at hp
      case isTrue h2 =>
        rw [List.mem_singleton.mp hp]
        refine ⟨rfl, ?_, ?_, Or.inr ?_⟩ <;> simp <;> omega
      case isFalse h2 => cases hp

lemma splitAll_parent {x xend : Nat} : ∀ {segs : List Seg} (p : Seg),
    p ∈ splitAll x xend segs →
    ∃ s ∈ segs, p.h = s.h ∧ s.x ≤ p.x ∧ p.x + p.w ≤ s.x + s.w ∧
      (p.x + p.w ≤ x ∨ xend ≤ p.x) := by
  intro segs
  induction segs with
  | nil => intro p hp; cases hp
  | cons a rest ih =>
    intro p hp
    rcases List.mem_append.mp hp with hp | hp
    · obtain ⟨h1, h2, h3, h4⟩ := splitSeg_mem hp
      exact ⟨a, List.mem_cons_self _ _, h1, h2, h3, h4⟩
    · obtain ⟨s, hs, hrest⟩ := ih p hp
      exact ⟨s, List.mem_cons_of_mem _ hs, hrest⟩

lemma splitAll_past {x xend : Nat} : ∀ {segs : List Seg} {pos stop : Nat},
    tiles pos stop segs = true → xend ≤ pos → splitAll x xend segs = segs := by
  intro segs
  induction segs with
  | nil => intro pos stop _ _; rfl
  | cons a rest ih =>
    intro pos stop h hle
    obtain ⟨h1, h2, h3⟩ := tiles_cons_iff.mp h
    show splitSeg x xend a ++ splitAll x xend rest = a :: rest
    have hkeep : splitSeg x xend a = [a] := by
      unfold splitSeg
      rw [if_pos]
      simp only [Bool.or_eq_true, decide_eq_true_eq]
      omega
    rw [hkeep, ih h3 (by omega)]
    rfl

lemma splitAll_mid {x xend : Nat} : ∀ {segs : List Seg} {pos stop : Nat},
    tiles pos stop segs = true → x ≤ pos → pos ≤ xend → xend ≤ stop →
    tiles xend stop (splitAll x xend segs) = true := by
  intro segs
  induction segs with
  | nil =>
    intro pos stop h hx hpx hxs
    have := tiles_nil_iff.mp h
    show tiles xend stop [] = true
    rw [tiles_nil_iff]
    omega
  | cons a rest ih =>
    intro pos stop h hx hpx hxs
    obtain ⟨h1, h2, h3⟩ := tiles_cons_iff.mp h
    show tiles xend stop (splitSeg x xend a ++ splitAll x xend rest) = true
    by_cases hc : xend ≤ a.x
    · have hkeep : splitSeg x xend a = [a] := by
        unfold splitSeg
        rw [if_pos (by simp only [Bool.or_eq_true, decide_eq_true_eq]; omega)]
      rw [hkeep, splitAll_past h3 (by omega)]
      refine tiles_cons_iff.mpr ⟨by omega, h2, ?_⟩
      rw [show xend + a.w = pos + a.w by omega]
      exact h3
    · push_neg at hc
      by_cases hr : xend < a.x + a.w
      · have hsplit : splitSeg x xend a = [⟨xend, a.x + a.w - xend, a.h⟩] := by
          unfold splitSeg
          rw [if_neg (by simp only [Bool.or_eq_true, decide_eq_true_eq]; omega),
              if_neg (show ¬ a.x < x by omega), if_pos (show xend < a.x + a.w by omega)]
          rfl
        rw [hsplit, splitAll_past h3 (by omega)]
        refine tiles_cons_iff.mpr ⟨rfl, by show 1 ≤ a.x + a.w - xend; omega, ?_⟩
        rw [show xend + (a.x + a.w - xend) = pos + a.w by omega]
        exact h3
      · push_neg at hr
        have hsplit : splitSeg x xend a = [] := by
          unfold splitSeg
          rw [if_neg (by simp only [Bool.or_eq_true, decide_eq_true_eq]; omega),
              if_neg (show ¬ a.x < x by omega), if_neg (show ¬ xend < a.x + a.w by omega)]
          rfl
        rw [hsplit]
        exact ih h3 (by omega) (by omega) hxs

lemma splitAll_main {x xend : Nat} : ∀ {segs : List Seg} {pos stop : Nat},
    tiles pos stop segs = true → pos ≤ x → x ≤ xend → xend ≤ stop →
    ∃ L R, splitAll x xend segs = L ++ R ∧ tiles pos x L = true ∧
      tiles xend stop R = true := by
  intro segs
  induction segs with
  | nil =>
    intro pos stop h hpx hxe hes
    have := tiles_nil_iff.mp h
    exact ⟨[], [], rfl, tiles_nil_iff.mpr (by omega), tiles_nil_iff.mpr (by omega)⟩
  | cons a rest ih =>
    intro pos stop h hpx hxe hes
    obtain ⟨h1, h2, h3⟩ := tiles_cons_iff.mp h
    show ∃ L R, splitSeg x xend a ++ splitAll x xend rest = L ++ R ∧
      tiles pos x L = true ∧ tiles xend stop R = true
    by_cases hL : a.x + a.w ≤ x
    · have hkeep : splitSeg x xend a = [a] := by
        unfold splitSeg
        rw [if_pos (by simp only [Bool.or_eq_true, decide_eq_true_eq]; omega)]
      obtain ⟨L, R, heq, hLt, hRt⟩ := ih h3 (by omega) hxe hes
      refine ⟨a :: L, R, ?_, ?_, hRt⟩
      · rw [hkeep, heq]; rfl
      · exact tiles_cons_iff.mpr ⟨h1, h2, hLt⟩
    · push_neg at hL
      by_cases hc : xend ≤ a.x
      · have hkeep : splitSeg x xend a = [a] := by
          unfold splitSeg
          rw [if_pos (by simp only [Bool.or_eq_true, decide_eq_true_eq]; omega)]
        refine ⟨[], a :: rest, ?_, tiles_nil_iff.mpr (by omega), ?_⟩
        · rw [hkeep, splitAll_past h3 (by omega)]; rfl
        · refine tiles_cons_iff.mpr ⟨by omega, h2, ?_⟩
          rw [show xend + a.w = pos + a.w by omega]
          exact h3
      · push_neg at hc
        by_cases hr : xend < a.x + a.w
        · have hsplit : splitSeg x xend a =
              (if a.x < x then [(⟨a.x, x - a.x, a.h⟩ : Seg)] else []) ++
              [⟨xend, a.x + a.w - xend, a.h⟩] := by
            unfold splitSeg
            rw [if_neg (by simp only [Bool.or_eq_true, decide_eq_true_eq]; omega),
                if_pos (show xend < a.x + a.w by omega)]
          rw [hsplit, splitAll_past h3 (by omega)]
          refine ⟨(if a.x < x then [(⟨a.x, x - a.x, a.h⟩ : Seg)] else []),
                  ⟨xend, a.x + a.w - xend, a.h⟩ :: rest, by simp, ?_, ?_⟩
          · by_cases hax : a.x < x
            · rw [if_pos hax]
              refine tiles_cons_iff.mpr ⟨h1, by show 1 ≤ x - a.x; omega, ?_⟩
              rw [tiles_nil_iff]
              show pos + (x - a.x) = x
              omega
            · rw [if_neg hax]
              rw [tiles_nil_iff]
              omega
          · refine tiles_cons_iff.mpr ⟨rfl, by show 1 ≤ a.x + a.w - xend; omega, ?_⟩
            rw [show xend + (a.x + a.w - xend) = pos + a.w by omega]
            exact h3
        · push_neg at hr
          have hsplit : splitSeg x xend a =
              (if a.x < x then [(⟨a.x, x - a.x, a.h⟩ : Seg)] else []) := by
            unfold splitSeg
            rw [if_neg (by simp only [Bool.or_eq_true, decide_eq_true_eq]; omega),
                if_neg (show ¬ xend < a.x + a.w by omega)]
            simp
          have hmid := @splitAll_mid x xend _ _ _ h3
            (show x ≤ pos + a.w by omega) (show pos + a.w ≤ xend by omega) hes
          refine ⟨(if a.x < x then [(⟨a.x, x - a.x, a.h⟩ : Seg)] else []),
                  splitAll x xend rest, by rw [hsplit], ?_, hmid⟩
          by_cases hax : a.x < x
          · rw [if_pos hax]
            refine tiles_cons_iff.mpr ⟨h1, by show 1 ≤ x - a.x; omega, ?_⟩
            rw [tiles_nil_iff]
            show pos + (x - a.x) = x
            omega
          · rw [if_neg hax]
            rw [tiles_nil_iff]
            omega

lemma mem_insertAscBy {α : Type} {key : α → Nat} {a c : α} :
    ∀ {l : List α}, c ∈ insertAscBy key a l ↔ c = a ∨ c ∈ l := by
  intro l
  induction l with
  | nil => simp [insertAscBy]
  | cons b rest ih =>
    unfold insertAscBy
    split
    · simp only [List.mem_cons, ih]
      tauto
    · simp only [List.mem_cons]

lemma insertAscBy_front {α : Type} {key : α → Nat} {a : α} {l : List α}
    (h : ∀ c ∈ l, ¬ key c < key a) : insertAscBy key a l = a :: l := by
  cases l with
  | nil => rfl
  | cons b rest =>
    unfold insertAscBy
    rw [if_neg (h b (List.mem_cons_self _ _))]

lemma insertAscBy_middle {α : Type} {key : α → Nat} {a : α} :
    ∀ {L R : List α}, (∀ b ∈ L, key b < key a) → (∀ b ∈ R, ¬ key b < key a) →
    insertAscBy key a (L ++ R) = L ++ a :: R := by
  intro L
  induction L with
  | nil =>
    intro R _ hR
    exact insertAscBy_front hR
  | cons b L' ih =>
    intro R hL hR
    show (if key b < key a then b :: insertAscBy key a (L' ++ R) else a :: b :: (L' ++ R)) =
      b :: (L' ++ a :: R)
    rw [if_pos (hL b (List.mem_cons_self _ _)),
        ih (fun c hc => hL c (List.mem_cons_of_mem _ hc)) hR]

lemma sortAscBy_append_single {α : Type} {key : α → Nat} {a : α} :
    ∀ {l : List α}, List.Pairwise (fun u v => key u < key v) l →
    (∀ b ∈ l, key b ≠ key a) →
    sortAscBy key (l ++ [a]) = insertAscBy key a l := by
  intro l
  induction l with
  | nil => intro _ _; rfl
  | cons b l' ih =>
    intro hpw hne
    obtain ⟨hb, hpw'⟩ := List.pairwise_cons.mp hpw
    show insertAscBy key b (sortAscBy key (l' ++ [a])) = insertAscBy key a (b :: l')
    rw [ih hpw' (fun c hc => hne c (List.mem_cons_of_mem _ hc))]
    have hba := hne b (List.mem_cons_self _ _)
    by_cases hlt : key b < key a
    · have hfront : ∀ c ∈ insertAscBy key a l', ¬ key c < key b := by
        intro c hc
        rcases mem_insertAscBy.mp hc with hc | hc
        · subst hc; omega
        · have := hb c hc; omega
      rw [insertAscBy_front hfront]
      show b :: insertAscBy key a l' =
        (if key b < key a then b :: insertAscBy key a l' else a :: b :: l')
      rw [if_pos hlt]
    · have hab : key a < key b := by omega
      have h1 : insertAscBy key a l' = a :: l' :=
        insertAscBy_front (fun c hc => by have := hb c hc; omega)
      have h2 : insertAscBy key b l' = b :: l' :=
        insertAscBy_front (fun c hc => by have := hb c hc; omega)
      rw [h1]
      show (if key a < key b then a :: insertAscBy key b l' else b :: a :: l') =
        (if key b < key a then b :: insertAscBy key a l' else a :: b :: l')
      rw [if_pos hab, if_neg hlt, h2]

lemma mergeSegs_cons_nil {s : Seg} {rest : List Seg} (hm : mergeSegs rest = []) :
    mergeSegs (s :: rest) = [s] := by
  unfold mergeSegs
  rw [hm]

lemma mergeSegs_cons_merge {s t : Seg} {rest ts : List Seg}
    (hm : mergeSegs rest = t :: ts)
    (hc : (s.h == t.h && s.x + s.w == t.x) = true) :
    mergeSegs (s :: rest) = ⟨s.x, s.w + t.w, s.h⟩ :: ts := by
  unfold mergeSegs
  rw [hm]
  show (if (s.h == t.h && s.x + s.w == t.x) = true
    then (⟨s.x, s.w + t.w, s.h⟩ : Seg) :: ts else s :: t :: ts) = ⟨s.x, s.w + t.w, s.h⟩ :: ts
  rw [if_pos hc]

lemma mergeSegs_cons_keep {s t : Seg} {rest ts : List Seg}
    (hm : mergeSegs rest = t :: ts)
    (hc : ¬ (s.h == t.h && s.x + s.w == t.x) = true) :
    mergeSegs (s :: rest) = s :: t :: ts := by
  unfold mergeSegs
  rw [hm]
  show (if (s.h == t.h && s.x + s.w == t.x) = true
    then (⟨s.x, s.w + t.w, s.h⟩ : Seg) :: ts else s :: t :: ts) = s :: t :: ts
  rw [if_neg hc]

lemma mergeSegs_tiles : ∀ {l : List Seg} {pos stop : Nat},
    tiles pos stop l = true → tiles pos stop (mergeSegs l) = true := by
  intro l
  induction l with
  | nil => intro pos stop h; exact h
  | cons s rest ih =>
    intro pos stop h
    obtain ⟨h1, h2, h3⟩ := tiles_cons_iff.mp h
    have hmt := ih h3
    cases hm : mergeSegs rest with
    | nil =>
      rw [mergeSegs_cons_nil hm]
      rw [hm] at hmt
      exact tiles_cons_iff.mpr ⟨h1, h2, hmt⟩
    | cons t ts =>
      rw [hm] at hmt
      obtain ⟨ht1, ht2, ht3⟩ := tiles_cons_iff.mp hmt
      by_cases hcond : (s.h == t.h && s.x + s.w == t.x) = true
      · rw [mergeSegs_cons_merge hm hcond]
        refine tiles_cons_iff.mpr ⟨h1, by show 1 ≤ s.w + t.w; omega, ?_⟩
        rw [show pos + (s.w + t.w) = pos + s.w + t.w by omega]
        exact ht3
      · rw [mergeSegs_cons_keep hm hcond]
        exact tiles_cons_iff.mpr ⟨h1, h2, hmt⟩

lemma mergeSegs_chain : ∀ {l : List Seg} {pos stop : Nat},
    tiles pos stop l = true →
    List.Chain' (fun u v : Seg => u.h ≠ v.h) (mergeSegs l) := by
  intro l
  induction l with
  | nil => intro pos stop _; exact List.chain'_nil
  | cons s rest ih =>
    intro pos stop h
    obtain ⟨h1, h2, h3⟩ := tiles_cons_iff.mp h
    have hch := ih h3
    have hmt := mergeSegs_tiles h3
    cases hm : mergeSegs rest with
    | nil =>
      rw [mergeSegs_cons_nil hm]
      exact List.chain'_singleton _
    | cons t ts =>
      rw [hm] at hch hmt
      obtain ⟨ht1, ht2, ht3⟩ := tiles_cons_iff.mp hmt
      obtain ⟨hhd, htl⟩ := List.chain'_cons'.mp hch
      by_cases hcond : (s.h == t.h && s.x + s.w == t.x) = true
      · rw [mergeSegs_cons_merge hm hcond]
        simp only [Bool.and_eq_true, beq_iff_eq] at hcond
        refine List.chain'_cons'.mpr ⟨?_, htl⟩
        intro b hb
        show s.h ≠ b.h
        rw [hcond.1]
        exact hhd b hb
      · rw [mergeSegs_cons_keep hm hcond]
        simp only [Bool.and_eq_true, beq_iff_eq, not_and] at hcond
        refine List.chain'_cons'.mpr ⟨?_, hch⟩
        intro b hb
        simp only [List.head?_cons, Option.mem_def, Option.some.injEq] at hb
        subst hb
        intro heq
        exact hcond heq (by omega)

lemma mergeSegs_point : ∀ {l : List Seg} (s' : Seg), s' ∈ mergeSegs l →
    ∀ u, s'.x ≤ u → u < s'.x + s'.w →
    ∃ s ∈ l, s.x ≤ u ∧ u < s.x + s.w ∧ s.h = s'.h := by
  intro l
  induction l with
  | nil => intro s' hs'; cases hs'
  | cons s rest ih =>
    intro s' hs' u hu1 hu2
    cases hm : mergeSegs rest with
    | nil =>
      rw [mergeSegs_cons_nil hm] at hs'
      rw [List.mem_singleton.mp hs'] at hu1 hu2 ⊢
      exact ⟨s, List.mem_cons_self _ _, hu1, hu2, rfl⟩
    | cons t ts =>
      by_cases hcond : (s.h == t.h && s.x + s.w == t.x) = true
      · rw [mergeSegs_cons_merge hm hcond] at hs'
        simp only [Bool.and_eq_true, beq_iff_eq] at hcond
        obtain ⟨hch, hcx⟩ := hcond
        rcases List.mem_cons.mp hs' with hs' | hs'
        · subst hs'
          have hu1' : s.x ≤ u := hu1
          have hu2' : u < s.x + (s.w + t.w) := hu2
          by_cases hu : u < s.x + s.w
          · exact ⟨s, List.mem_cons_self _ _, hu1', hu, rfl⟩
          · have ht : t ∈ mergeSegs rest := by rw [hm]; exact List.mem_cons_self _ _
            obtain ⟨s0, hs0, ha, hb, hc⟩ := ih t ht u (by omega) (by omega)
            refine ⟨s0, List.mem_cons_of_mem _ hs0, ha, hb, ?_⟩
            show s0.h = s.h
            rw [hc, ← hch]
        · have hmem : s' ∈ mergeSegs rest := by rw [hm]; exact List.mem_cons_of_mem _ hs'
          obtain ⟨s0, hs0, ha, hb, hc⟩ := ih s' hmem u hu1 hu2
          exact ⟨s0, List.mem_cons_of_mem _ hs0, ha, hb, hc⟩
      · rw [mergeSegs_cons_keep hm hcond] at hs'
        rcases List.mem_cons.mp hs' with hs' | hs'
        · refine ⟨s, List.mem_cons_self _ _, ?_, ?_, ?_⟩
          · rw [← hs']; exact hu1
          · rw [← hs']; exact hu2
          · rw [hs']
        · have hmem : s' ∈ mergeSegs rest := by rw [hm]; exact hs'
          obtain ⟨s0, hs0, ha, hb, hc⟩ := ih s' hmem u hu1 hu2
          exact ⟨s0, List.mem_cons_of_mem _ hs0, ha, hb, hc⟩

lemma update_splice {segs : List Seg} {W x w y h : Nat}
    (ht : tiles 0 W segs = true) (hw : 1 ≤ w) (hxw : x + w ≤ W) :
    ∃ L R, splitAll x (x + w) segs = L ++ R ∧ tiles 0 x L = true ∧
      tiles (x + w) W R = true ∧
      updateSkyline segs x w y h = mergeSegs (L ++ ⟨x, w, y + h⟩ :: R) := by
  obtain ⟨L, R, heq, hLt, hRt⟩ :=
    @splitAll_main x (x + w) _ _ _ ht (Nat.zero_le x) (by omega) hxw
  refine ⟨L, R, heq, hLt, hRt, ?_⟩
  unfold updateSkyline
  rw [heq]
  have hLfacts : ∀ b ∈ L, b.x < x := by
    intro b hb
    have := tiles_bounds hLt b hb
    omega
  have hRfacts : ∀ b ∈ R, x + w ≤ b.x := by
    intro b hb
    exact (tiles_bounds hRt b hb).1
  have hpw : List.Pairwise (fun u v : Seg => Seg.x u < Seg.x v) (L ++ R) := by
    rw [List.pairwise_append]
    refine ⟨tiles_pairwise hLt, tiles_pairwise hRt, ?_⟩
    intro a ha b hb
    have h1 := hLfacts a ha
    have h2 := hRfacts b hb
    omega
  have hne : ∀ b ∈ L ++ R, Seg.x b ≠ Seg.x (⟨x, w, y + h⟩ : Seg) := by
    intro b hb
    show b.x ≠ x
    rcases List.mem_append.mp hb with hb | hb
    · have := hLfacts b hb; omega
    · have := hRfacts b hb; omega
  rw [sortAscBy_append_single hpw hne]
  rw [@insertAscBy_middle Seg Seg.x ⟨x, w, y + h⟩ _ _ hLfacts
        (fun b hb => by have := hRfacts b hb; show ¬ b.x < x; omega)]

lemma update_tiles {segs : List Seg} {W x w y h : Nat}
    (ht : tiles 0 W segs = true) (hw : 1 ≤ w) (hxw : x + w ≤ W) :
    tiles 0 W (updateSkyline segs x w y h) = true := by
  obtain ⟨L, R, _, hLt, hRt, hupd⟩ := update_splice (y := y) (h := h) ht hw hxw
  rw [hupd]
  exact mergeSegs_tiles (tiles_append hLt (tiles_cons_iff.mpr ⟨rfl, hw, hRt⟩))

lemma update_chain {segs : List Seg} {W x w y h : Nat}
    (ht : tiles 0 W segs = true) (hw : 1 ≤ w) (hxw : x + w ≤ W) :
    List.Chain' (fun u v : Seg => u.h ≠ v.h) (updateSkyline segs x w y h) := by
  obtain ⟨L, R, _, hLt, hRt, hupd⟩ := update_splice (y := y) (h := h) ht hw hxw
  rw [hupd]
  exact mergeSegs_chain (tiles_append hLt (tiles_cons_iff.mpr ⟨rfl, hw, hRt⟩))

lemma update_point {segs : List Seg} {W x w y h : Nat}
    (ht : tiles 0 W segs = true) (hw : 1 ≤ w) (hxw : x + w ≤ W) :
    ∀ s' ∈ updateSkyline segs x w y h, ∀ u, s'.x ≤ u → u < s'.x + s'.w →
    (x ≤ u ∧ u < x + w ∧ s'.h = y + h) ∨
    (∃ s ∈ segs, s.x ≤ u ∧ u < s.x + s.w ∧ s.h = s'.h ∧ (u < x ∨ x + w ≤ u)) := by
  obtain ⟨L, R, heq, hLt, hRt, hupd⟩ := update_splice (y := y) (h := h) ht hw hxw
  intro s' hs' u hu1 hu2
  rw [hupd] at hs'
  obtain ⟨s0, hs0, ha, hb, hc⟩ := mergeSegs_point s' hs' u hu1 hu2
  have hpieces : s0 ∈ L ∨ s0 = (⟨x, w, y + h⟩ : Seg) ∨ s0 ∈ R := by
    rcases List.mem_append.mp hs0 with hm | hm
    · exact Or.inl hm
    · rcases List.mem_cons.mp hm with hm | hm
      · exact Or.inr (Or.inl hm)
      · exact Or.inr (Or.inr hm)
  rcases hpieces with hm | hm | hm
  · have hsp : s0 ∈ splitAll x (x + w) segs := by
      rw [heq]; exact List.mem_append_left _ hm
    obtain ⟨s1, hs1, hh, hx1, hx2, hdisj⟩ := splitAll_parent s0 hsp
    refine Or.inr ⟨s1, hs1, by omega, by omega, ?_, by omega⟩
    rw [← hh]
    exact hc
  · subst hm
    refine Or.inl ⟨ha, hb, hc.symm⟩
  · have hsp : s0 ∈ splitAll x (x + w) segs := by
      rw [heq]; exact List.mem_append_right _ hm
    obtain ⟨s1, hs1, hh, hx1, hx2, hdisj⟩ := splitAll_parent s0 hsp
    refine Or.inr ⟨s1, hs1, by omega, by omega, ?_, by omega⟩
    rw [← hh]
    exact hc

lemma findPosition_aux {w : Nat} : ∀ (l : List Seg) (acc : Option (Nat × Nat))
    {xs yy : Nat},
    l.foldl (fun best seg =>
      if seg.w < w then best
      else
        match best with
        | none => some (seg.x, seg.h)
        | some (bx, bh) =>
          if seg.h < bh || (seg.h == bh && seg.x < bx) then some (seg.x, seg.h)
          else best) acc = some (xs, yy) →
    acc = some (xs, yy) ∨ ∃ s ∈ l, s.x = xs ∧ s.h = yy ∧ w ≤ s.w := by
  intro l
  induction l with
  | nil => intro acc xs yy hfold; exact Or.inl hfold
  | cons seg rest ih =>
    intro acc xs yy hfold
    rw [List.foldl_cons] at hfold
    rcases ih _ hfold with h1 | h1
    · by_cases hw : seg.w < w
      · rw [if_pos hw] at h1
        exact Or.inl h1
      · rw [if_neg hw] at h1
        cases acc with
        | none =>
          simp only [Option.some.injEq, Prod.mk.injEq] at h1
          exact Or.inr ⟨seg, List.mem_cons_self _ _, h1.1, h1.2, by omega⟩
        | some p =>
          obtain ⟨bx, bh⟩ := p
          have h1' : (if seg.h < bh || (seg.h == bh && seg.x < bx)
              then some (seg.x, seg.h) else some (bx, bh)) = some (xs, yy) := h1
          by_cases hcond : (seg.h < bh || (seg.h == bh && seg.x < bx)) = true
          · rw [if_pos hcond] at h1'
            simp only [Option.some.injEq, Prod.mk.injEq] at h1'
            exact Or.inr ⟨seg, List.mem_cons_self _ _, h1'.1, h1'.2, by omega⟩
          · rw [if_neg hcond] at h1'
            exact Or.inl h1' 
    · obtain ⟨s, hs, hrest⟩ := h1
      exact Or.inr ⟨s, List.mem_cons_of_mem _ hs, hrest⟩

lemma findPosition_some {segs : List Seg} {w xs yy : Nat}
    (h : findPosition segs w = some (xs, yy)) :
    ∃ s ∈ segs, s.x = xs ∧ s.h = yy ∧ w ≤ s.w := by
  unfold findPosition at h
  rcases findPosition_aux segs none h with h1 | h1
  · cases h1
  · exact h1

lemma skyPlace_inv {W : Nat} {segs : List Seg} {ps : List Placement}
    (hinv : SkyInv W (segs, ps)) {x y w h : Nat} (hw : 1 ≤ w) (hxw : x + w ≤ W)
    (hdomq : ∀ p ∈ ps, ∀ u, x ≤ u → u < x + w → p.x ≤ u → u < p.x + p.w_eff →
      p.y + p.h_eff ≤ y) (rid : Nat) (rot : Bool) :
    SkyInv W (updateSkyline segs x w y h, ps ++ [⟨rid, x, y, w, h, rot⟩]) := by
  set q : Placement := ⟨rid, x, y, w, h, rot⟩ with hq
  refine ⟨update_tiles hinv.wf hw hxw, ?_, ?_, ?_, ?_⟩
  · -- dominance of the new profile over old and new placements
    intro p hp s' hs' u hs1 hs2 hp1 hp2
    rcases List.mem_append.mp hp with hp | hp
    · rcases update_point hinv.wf hw hxw s' hs' u hs1 hs2 with
        ⟨hxu, hxu2, hsh⟩ | ⟨s, hsm, ha, hb, hc, hdisj⟩
      · have := hdomq p hp u hxu hxu2 hp1 hp2
        rw [hsh]
        omega
      · have := hinv.dom p hp s hsm u ha hb hp1 hp2
        rw [← hc]
        exact this
    · rw [List.mem_singleton.mp hp] at hp1 hp2 ⊢
      rcases update_point hinv.wf hw hxw s' hs' u hs1 hs2 with
        ⟨_, _, hsh⟩ | ⟨s, _, ha, hb, hc, hdisj⟩
      · show q.y + q.h_eff ≤ s'.h
        rw [hsh]
      · exfalso
        have h1 : q.x ≤ u := hp1
        have h2 : u < q.x + q.w_eff := hp2
        simp only [hq] at h1 h2
        omega
  · intro p hp
    rcases List.mem_append.mp hp with hp | hp
    · exact hinv.inW p hp
    · rw [List.mem_singleton.mp hp]
      show x + w ≤ W
      exact hxw
  · intro p hp
    rcases List.mem_append.mp hp with hp | hp
    · exact hinv.wpos p hp
    · rw [List.mem_singleton.mp hp]
      exact hw
  · refine List.pairwise_append.mpr ⟨hinv.sep, List.pairwise_singleton _ _, ?_⟩
    intro p hp q0 hq0
    rw [List.mem_singleton.mp hq0]
    by_cases hno1 : p.x + p.w_eff ≤ x
    · exact Or.inl hno1
    by_cases hno2 : x + w ≤ p.x
    · exact Or.inr (Or.inl hno2)
    push_neg at hno1 hno2
    have hwp := hinv.wpos p hp
    have hu := hdomq p hp (max p.x x) (by omega) (by omega) (by omega) (by omega)
    exact Or.inr (Or.inr (Or.inl hu))

lemma skylineStep_ok {W : Nat} {allow : Bool} {st st' : List Seg × List Placement}
    {r : Rectangle} (hw : 1 ≤ r.w) (hh : 1 ≤ r.h)
    (hinv : SkyInv W st)
    (hstep : skylineStep W allow st r = .ok st') :
    SkyInv W st' ∧ ∃ q, st'.2 = st.2 ++ [q] ∧ placedRel allow r q := by
  obtain ⟨segs, ps⟩ := st
  unfold skylineStep at hstep
  dsimp only at hstep
  by_cases hg : W < (orient r allow true).1
  · rw [if_pos hg] at hstep; cases hstep
  rw [if_neg hg] at hstep
  set o := orient r allow true with ho
  have hwo : 1 ≤ o.1 := orient_w_pos r allow hw hh
  have hho : 1 ≤ o.2.1 := orient_h_pos r allow hw hh
  cases hp : findPosition segs o.1 with
  | some pr =>
    obtain ⟨xs, yy⟩ := pr
    rw [hp] at hstep
    injection hstep with hstep
    subst hstep
    obtain ⟨shost, hmem, hsx, hsh, hsw⟩ := findPosition_some hp
    have hb := tiles_bounds hinv.wf shost hmem
    have hxw : xs + o.1 ≤ W := by omega
    have hdomq : ∀ p ∈ ps, ∀ u, xs ≤ u → u < xs + o.1 → p.x ≤ u →
        u < p.x + p.w_eff → p.y + p.h_eff ≤ yy := by
      intro p hpp u h1 h2 h3 h4
      rw [← hsh]
      exact hinv.dom p hpp shost hmem u (by omega) (by omega) h3 h4
    exact ⟨skyPlace_inv hinv hwo hxw hdomq r.id o.2.2, ⟨r.id, xs, yy, o.1, o.2.1, o.2.2⟩,
      rfl, rfl, rfl, rfl, rfl⟩
  | none =>
    rw [hp] at hstep
    injection hstep with hstep
    subst hstep
    have hxw : 0 + o.1 ≤ W := by omega
    have hdomq : ∀ p ∈ ps, ∀ u, 0 ≤ u → u < 0 + o.1 → p.x ≤ u →
        u < p.x + p.w_eff → p.y + p.h_eff ≤ maxSegH segs := by
      intro p hpp u h1 h2 h3 h4
      obtain ⟨s, hs, ha, hb⟩ := tiles_cover hinv.wf u (Nat.zero_le u) (by omega)
      exact le_trans (hinv.dom p hpp s hs u ha hb h3 h4) (maxSegH_mem hs)
    exact ⟨skyPlace_inv hinv hwo hxw hdomq r.id o.2.2, ⟨r.id, 0, maxSegH segs, o.1, o.2.1, o.2.2⟩,
      rfl, rfl, rfl, rfl, rfl⟩

lemma sky_foldInv {W : Nat} {allow : Bool} :
    ∀ (l : List Rectangle) (st st' : List Seg × List Placement),
    SkyInv W st → (∀ r ∈ l, 1 ≤ r.w ∧ 1 ≤ r.h) →
    List.foldlM (skylineStep W allow) st l = .ok st' →
    SkyInv W st' ∧ ∃ qs, st'.2 = st.2 ++ qs ∧
      List.Forall₂ (placedRel allow) l qs := by
  intro l
  induction l with
  | nil =>
    intro st st' hinv _ hfold
    simp only [List.foldlM] at hfold
    injection hfold with hfold
    subst hfold
    exact ⟨hinv, [], by simp, List.Forall₂.nil⟩
  | cons r rest ih =>
    intro st st' hinv hdims hfold
    rw [show List.foldlM (skylineStep W allow) st (r :: rest)
          = skylineStep W allow st r >>= fun s1 => List.foldlM (skylineStep W allow) s1 rest
        from by simp [List.foldlM]] at hfold
    cases hs : skylineStep W allow st r with
    | error e =>
      rw [hs] at hfold
      cases hfold
    | ok st1 =>
      rw [hs] at hfold
      obtain ⟨hinv1, q, hps1, hrel⟩ :=
        skylineStep_ok (hdims r (List.mem_cons_self _ _)).1 (hdims r (List.mem_cons_self _ _)).2 hinv hs
      obtain ⟨hinv2, qs, hps2, hrel2⟩ := ih st1 st' hinv1
        (fun r' hr' => hdims r' (List.mem_cons_of_mem _ hr')) hfold
      refine ⟨hinv2, q :: qs, ?_, List.Forall₂.cons hrel hrel2⟩
      rw [hps2, hps1, List.append_assoc]
      rfl

lemma skyInv_init {W : Nat} (hW : 1 ≤ W) : SkyInv W ([⟨0, W, 0⟩], []) := by
  refine ⟨?_, ?_, ?_, ?_, ?_⟩
  · exact tiles_cons_iff.mpr ⟨rfl, hW, tiles_nil_iff.mpr (show 0 + W = W by omega)⟩
  · intro p hp; cases hp
  · intro p hp; cases hp
  · intro p hp; cases hp
  · exact List.Pairwise.nil

lemma skyline_ok {inst : Instance} {allow : Bool} {sol : Solution}
    (hW : 1 ≤ inst.W)
    (hdims : ∀ r ∈ inst.rectangles, 1 ≤ r.w ∧ 1 ≤ r.h)
    (h : skyline inst allow = .ok sol) :
    ∃ st : List Seg × List Placement, SkyInv inst.W st ∧
      sol = ⟨maxTop st.2, st.2, "Heuristic-Skyline", "feasible"⟩ ∧
      List.Forall₂ (placedRel allow) (skylineOrder inst allow) st.2 := by
  simp only [skyline] at h
  cases hf : List.foldlM (skylineStep inst.W allow) ([⟨0, inst.W, 0⟩], [])
      (sortDescBy (skylineKey allow) inst.rectangles) with
  | error e =>
    rw [hf] at h
    cases h
  | ok st =>
    rw [hf] at h
    simp only [Except.map] at h
    injection h with h
    have hdims' : ∀ r ∈ sortDescBy (skylineKey allow) inst.rectangles, 1 ≤ r.w ∧ 1 ≤ r.h := by
      intro r hr
      exact hdims r ((sortDescBy_perm (skylineKey allow) inst.rectangles).mem_iff.mp hr)
    obtain ⟨hinv, qs, hps, hrel⟩ := sky_foldInv _ _ _ (skyInv_init hW) hdims' hf
    refine ⟨st, hinv, h.symm, ?_⟩
    have hq : st.2 = qs := by rw [hps]; rfl
    rw [hq]
    exact hrel

lemma skylineOrder_perm (inst : Instance) (allow : Bool) :
    (skylineOrder inst allow).Perm inst.rectangles :=
  sortDescBy_perm (skylineKey allow) inst.rectangles

lemma skylineStep_rel {W : Nat} {allow : Bool} {st st' : List Seg × List Placement}
    {r : Rectangle} (hstep : skylineStep W allow st r = .ok st') :
    ∃ q, st'.2 = st.2 ++ [q] ∧ placedRel allow r q := by
  obtain ⟨segs, ps⟩ := st
  unfold skylineStep at hstep
  dsimp only at hstep
  by_cases hg : W < (orient r allow true).1
  · rw [if_pos hg] at hstep; cases hstep
  rw [if_neg hg] at hstep
  cases hp : findPosition segs (orient r allow true).1 with
  | some pr =>
    obtain ⟨xs, yy⟩ := pr
    rw [hp] at hstep
    injection hstep with hstep
    subst hstep
    exact ⟨_, rfl, rfl, rfl, rfl, rfl⟩
  | none =>
    rw [hp] at hstep
    injection hstep with hstep
    subst hstep
    exact ⟨_, rfl, rfl, rfl, rfl, rfl⟩

lemma sky_fold_rel {W : Nat} {allow : Bool} :
    ∀ (l : List Rectangle) (st st' : List Seg × List Placement),
    List.foldlM (skylineStep W allow) st l = .ok st' →
    ∃ qs, st'.2 = st.2 ++ qs ∧ List.Forall₂ (placedRel allow) l qs := by
  intro l
  induction l with
  | nil =>
    intro st st' hfold
    simp only [List.foldlM] at hfold
    injection hfold with hfold
    subst hfold
    exact ⟨[], by simp, List.Forall₂.nil⟩
  | cons r rest ih =>
    intro st st' hfold
    rw [show List.foldlM (skylineStep W allow) st (r :: rest)
          = skylineStep W allow st r >>= fun s1 => List.foldlM (skylineStep W allow) s1 rest
        from by simp [List.foldlM]] at hfold
    cases hs : skylineStep W allow st r with
    | error e => rw [hs] at hfold; cases hfold
    | ok st1 =>
      rw [hs] at hfold
      obtain ⟨q, hps1, hrel⟩ := skylineStep_rel hs
      obtain ⟨qs, hps2, hrel2⟩ := ih st1 st' hfold
      refine ⟨q :: qs, ?_, List.Forall₂.cons hrel hrel2⟩
      rw [hps2, hps1, List.append_assoc]
      rfl

lemma skyline_rel {inst : Instance} {allow : Bool} {sol : Solution}
    (h : skyline inst allow = .ok sol) :
    List.Forall₂ (placedRel allow) (skylineOrder inst allow) sol.placements := by
  simp only [skyline] at h
  cases hf : List.foldlM (skylineStep inst.W allow) ([⟨0, inst.W, 0⟩], [])
      (sortDescBy (skylineKey allow) inst.rectangles) with
  | error e => rw [hf] at h; cases h
  | ok st =>
    rw [hf] at h
    simp only [Except.map] at h
    injection h with h
    obtain ⟨qs, hps, hrel⟩ := sky_fold_rel _ _ _ hf
    rw [← h]
    show List.Forall₂ (placedRel allow) (skylineOrder inst allow) st.2
    have hq : st.2 = qs := by rw [hps]; rfl
    rw [hq]
    exact hrel

/-! Bridging lemmas: feasibility checker, lower bounds, list transfer. -/

lemma forall₂_mem_left {α β : Type} {R : α → β → Prop} :
    ∀ {l : List α} {m : List β}, List.Forall₂ R l m → ∀ a ∈ l, ∃ b ∈ m, R a b := by
  intro l m h
  induction h with
  | nil => intro a ha; cases ha
  | cons hab _ ih =>
    intro a ha
    rcases List.mem_cons.mp ha with ha | ha
    · subst ha
      exact ⟨_, List.mem_cons_self _ _, hab⟩
    · obtain ⟨b, hb, hr⟩ := ih a ha
      exact ⟨b, List.mem_cons_of_mem _ hb, hr⟩

lemma forall₂_mem_right {α β : Type} {R : α → β → Prop} :
    ∀ {l : List α} {m : List β}, List.Forall₂ R l m → ∀ b ∈ m, ∃ a ∈ l, R a b := by
  intro l m h
  induction h with
  | nil => intro b hb; cases hb
  | cons hab _ ih =>
    intro b hb
    rcases List.mem_cons.mp hb with hb | hb
    · subst hb
      exact ⟨_, List.mem_cons_self _ _, hab⟩
    · obtain ⟨a, ha, hr⟩ := ih b hb
      exact ⟨a, List.mem_cons_of_mem _ ha, hr⟩

lemma le_foldr_max {l : List Nat} {v : Nat} (h : v ∈ l) : v ≤ l.foldr max 0 := by
  induction l with
  | nil => cases h
  | cons a rest ih =>
    rcases List.mem_cons.mp h with h | h
    · subst h; exact Nat.le_max_left _ _
    · exact le_trans (ih h) (Nat.le_max_right _ _)

lemma foldr_max_mem : ∀ (l : List Nat), l ≠ [] → l.foldr max 0 ∈ l := by
  intro l
  induction l with
  | nil => intro h; exact absurd rfl h
  | cons a rest ih =>
    intro _
    cases hr : rest with
    | nil => simp
    | cons b rest' =>
      rw [← hr]
      show max a (rest.foldr max 0) ∈ a :: rest
      by_cases hc : rest.foldr max 0 ≤ a
      · rw [Nat.max_eq_left hc]
        exact List.mem_cons_self _ _
      · rw [Nat.max_eq_right (by omega)]
        exact List.mem_cons_of_mem _ (ih (by rw [hr]; exact List.cons_ne_nil _ _))

lemma check_feasibility_of {inst : Instance} {sol : Solution}
    (hzones : inst.forbidden_zones = [])
    (hbounds : ∀ p ∈ sol.placements, p.x + p.w_eff ≤ inst.W ∧ p.y + p.h_eff ≤ sol.H)
    (hids : (inst.rectangles.map Rectangle.id).toFinset
              = (sol.placements.map Placement.rect_id).toFinset)
    (hsep : List.Pairwise sepP sol.placements) :
    check_feasibility sol inst = true := by
  unfold check_feasibility
  rw [hzones]
  simp only [Bool.and_eq_true, List.all_eq_true, List.all_nil, Bool.not_eq_eq_eq_not,
    Bool.not_true, decide_eq_false_iff_not, not_lt, decide_eq_true_eq]
  refine ⟨⟨⟨?_, hids⟩, noOverlapPairs_iff.mpr hsep⟩, fun p _ => trivial⟩
  intro p hp
  have := hbounds p hp
  omega

lemma area_lb_le {inst : Instance} {ps : List Placement} {H : Nat}
    (hW : 1 ≤ inst.W)
    (hsum : (ps.map (fun p => p.w_eff * p.h_eff)).sum
              = (inst.rectangles.map Rectangle.area).sum)
    (hsep : List.Pairwise sepP ps)
    (hin : ∀ p ∈ ps, p.x + p.w_eff ≤ inst.W ∧ p.y + p.h_eff ≤ H) :
    area_lb inst ≤ H := by
  have h := packing_area hsep hin
  rw [hsum] at h
  exact ceil_div_le hW h

lemma maxh_lb_le {inst : Instance} {allow : Bool} {order : List Rectangle}
    {ps : List Placement} {H : Nat}
    (hne : inst.rectangles ≠ [])
    (hrel : List.Forall₂ (placedRel allow) order ps)
    (hperm : order.Perm inst.rectangles)
    (htops : ∀ p ∈ ps, p.y + p.h_eff ≤ H) :
    maxh_lb inst allow ≤ H := by
  cases allow with
  | true =>
    have hmem : maxh_lb inst true ∈ inst.rectangles.map (fun r => min r.h r.w) := by
      unfold maxh_lb
      simp only [if_pos]
      exact foldr_max_mem _ (by simp [hne])
    obtain ⟨r, hr, hval⟩ := List.mem_map.mp hmem
    obtain ⟨q, hq, hrel'⟩ := forall₂_mem_left hrel r (hperm.mem_iff.mpr hr)
    have h1 := htops q hq
    have h2 : min r.h r.w ≤ q.h_eff := by
      rw [hrel'.2.2.1]
      exact orient_h_min r true
    omega
  | false =>
    have hmem : maxh_lb inst false ∈ inst.rectangles.map (fun r => r.h) := by
      unfold maxh_lb
      simp only [if_neg (by simp : ¬ (false : Bool) = true)]
      exact foldr_max_mem _ (by simp [hne])
    obtain ⟨r, hr, hval⟩ := List.mem_map.mp hmem
    obtain ⟨q, hq, hrel'⟩ := forall₂_mem_left hrel r (hperm.mem_iff.mpr hr)
    have h1 := htops q hq
    have h2 : r.h ≤ q.h_eff := by
      rw [hrel'.2.2.1, orient_h_noRot]
    omega

lemma placedRel_map_id {allow : Bool} {order : List Rectangle} {ps : List Placement}
    (hrel : List.Forall₂ (placedRel allow) order ps) :
    order.map Rectangle.id = ps.map Placement.rect_id :=
  forall₂_map_eq _ _ hrel (fun _ _ hr => hr.1.symm)

lemma placedRel_map_area {allow : Bool} {order : List Rectangle} {ps : List Placement}
    (hrel : List.Forall₂ (placedRel allow) order ps) :
    order.map Rectangle.area = ps.map (fun p => p.w_eff * p.h_eff) :=
  forall₂_map_eq _ _ hrel (fun r q hr => by
    show r.w * r.h = q.w_eff * q.h_eff
    rw [hr.2.1, hr.2.2.1, orient_area])

lemma nfdh_facts {inst : Instance} {allow : Bool} {sol : Solution}
    (h : nfdh inst allow = .ok sol) :
    (∀ p ∈ sol.placements, p.x + p.w_eff ≤ inst.W ∧ p.y + p.h_eff ≤ sol.H) ∧
    List.Pairwise sepP sol.placements ∧
    List.Forall₂ (placedRel allow) (nfdhOrder inst allow) sol.placements := by
  obtain ⟨st, hinv, hsol, hrel⟩ := nfdh_ok h
  subst hsol
  exact ⟨fun p hp => ⟨hinv.inW p hp, hinv.topLe p hp⟩, hinv.sep, hrel⟩

lemma skyline_facts {inst : Instance} {allow : Bool} {sol : Solution}
    (hW : 1 ≤ inst.W)
    (hdims : ∀ r ∈ inst.rectangles, 1 ≤ r.w ∧ 1 ≤ r.h)
    (h : skyline inst allow = .ok sol) :
    (∀ p ∈ sol.placements, p.x + p.w_eff ≤ inst.W ∧ p.y + p.h_eff ≤ sol.H) ∧
    List.Pairwise sepP sol.placements ∧
    List.Forall₂ (placedRel allow) (skylineOrder inst allow) sol.placements := by
  obtain ⟨st, hinv, hsol, hrel⟩ := skyline_ok hW hdims h
  subst hsol
  exact ⟨fun p hp => ⟨hinv.inW p hp, maxTop_mem hp⟩, hinv.sep, hrel⟩

lemma ids_toFinset_eq {inst : Instance} {allow : Bool} {order : List Rectangle}
    {ps : List Placement}
    (hrel : List.Forall₂ (placedRel allow) order ps)
    (hperm : order.Perm inst.rectangles) :
    (inst.rectangles.map Rectangle.id).toFinset = (ps.map Placement.rect_id).toFinset := by
  rw [← placedRel_map_id hrel]
  exact (List.toFinset_eq_of_perm _ _ (hperm.map Rectangle.id)).symm

lemma areas_sum_eq {inst : Instance} {allow : Bool} {order : List Rectangle}
    {ps : List Placement}
    (hrel : List.Forall₂ (placedRel allow) order ps)
    (hperm : order.Perm inst.rectangles) :
    (ps.map (fun p => p.w_eff * p.h_eff)).sum = (inst.rectangles.map Rectangle.area).sum := by
  rw [← placedRel_map_area hrel]
  exact (hperm.map Rectangle.area).sum_eq

lemma nfdh_check {inst : Instance} {allow : Bool} {sol : Solution}
    (hz : inst.forbidden_zones = []) (h : nfdh inst allow = .ok sol) :
    check_feasibility sol inst = true := by
  obtain ⟨hbounds, hsep, hrel⟩ := nfdh_facts h
  exact check_feasibility_of hz hbounds (ids_toFinset_eq hrel (nfdhOrder_perm inst allow)) hsep

lemma skyline_check {inst : Instance} {allow : Bool} {sol : Solution}
    (hW : 1 ≤ inst.W)
    (hdims : ∀ r ∈ inst.rectangles, 1 ≤ r.w ∧ 1 ≤ r.h)
    (hz : inst.forbidden_zones = []) (h : skyline inst allow = .ok sol) :
    check_feasibility sol inst = true := by
  obtain ⟨hbounds, hsep, hrel⟩ := skyline_facts hW hdims h
  exact check_feasibility_of hz hbounds (ids_toFinset_eq hrel (skylineOrder_perm inst allow)) hsep

lemma nfdh_lb {inst : Instance} {allow : Bool} {sol : Solution}
    (hW : 1 ≤ inst.W) (hne : inst.rectangles ≠ [])
    (h : nfdh inst allow = .ok sol) :
    max (area_lb inst) (maxh_lb inst allow) ≤ sol.H := by
  obtain ⟨hbounds, hsep, hrel⟩ := nfdh_facts h
  refine max_le ?_ ?_
  · exact area_lb_le hW (areas_sum_eq hrel (nfdhOrder_perm inst allow)) hsep hbounds
  · exact maxh_lb_le hne hrel (nfdhOrder_perm inst allow) (fun p hp => (hbounds p hp).2)

lemma skyline_lb {inst : Instance} {allow : Bool} {sol : Solution}
    (hW : 1 ≤ inst.W) (hne : inst.rectangles ≠ [])
    (hdims : ∀ r ∈ inst.rectangles, 1 ≤ r.w ∧ 1 ≤ r.h)
    (h : skyline inst allow = .ok sol) :
    max (area_lb inst) (maxh_lb inst allow) ≤ sol.H := by
  obtain ⟨hbounds, hsep, hrel⟩ := skyline_facts hW hdims h
  refine max_le ?_ ?_
  · exact area_lb_le hW (areas_sum_eq hrel (skylineOrder_perm inst allow)) hsep hbounds
  · exact maxh_lb_le hne hrel (skylineOrder_perm inst allow) (fun p hp => (hbounds p hp).2)

/-! Metaheuristic decoder lemmas. -/

lemma perm_foldr_max {l1 l2 : List Nat} (h : l1.Perm l2) :
    l1.foldr max 0 = l2.foldr max 0 := by
  induction h with
  | nil => rfl
  | cons a _ ih => simp only [List.foldr_cons, ih]
  | swap a b l =>
    simp only [List.foldr_cons]
    exact Nat.max_left_comm _ _ _
  | trans _ _ ih1 ih2 => exact ih1.trans ih2

lemma mapM_ok_forall₂ {α β : Type} {f : α → Except MetaErr β} :
    ∀ {l : List α} {out : List β},
    l.mapM f = .ok out → List.Forall₂ (fun a b => f a = .ok b) l out := by
  intro l
  induction l with
  | nil =>
    intro out h
    simp only [List.mapM_nil] at h
    injection h with h
    subst h
    exact List.Forall₂.nil
  | cons a rest ih =>
    intro out h
    rw [List.mapM_cons] at h
    cases hfa : f a with
    | error e => rw [hfa] at h; cases h
    | ok b =>
      rw [hfa] at h
      cases hrest : rest.mapM f with
      | error e =>
        rw [hrest] at h
        cases h
      | ok bs =>
        rw [hrest] at h
        simp only [bind_pure_comp] at h
        injection h with h
        subst h
        exact List.Forall₂.cons hfa (ih hrest)

lemma id_to_rect_mem {rects : List Rectangle} {rid : Nat} {r : Rectangle}
    (h : id_to_rect rects rid = some r) : r ∈ rects ∧ r.id = rid := by
  unfold id_to_rect at h
  refine ⟨List.mem_reverse.mp (List.mem_of_find?_eq_some h), ?_⟩
  have := List.find?_some h
  simpa using this

lemma id_to_rect_self {rects : List Rectangle}
    (hnodup : (rects.map Rectangle.id).Nodup) {r : Rectangle} (hr : r ∈ rects) :
    id_to_rect rects r.id = some r := by
  cases hfind : id_to_rect rects r.id with
  | none =>
    unfold id_to_rect at hfind
    have := List.find?_eq_none.mp hfind r (List.mem_reverse.mpr hr)
    simp at this
  | some r0 =>
    obtain ⟨hmem, hid⟩ := id_to_rect_mem hfind
    have : r0 = r := List.inj_on_of_nodup_map hnodup hmem hr hid
    rw [this]

/-- The relation between one (id, bit) pair and the rebuilt rectangle of
the decoder. -/
def decodeRel (inst : Instance) (allow_rotation : Bool)
    (rb : Nat × Nat) (rr : Rectangle) : Prop :=
  ∃ r0, id_to_rect inst.rectangles rb.1 = some r0 ∧
    rr = ⟨r0.id, r0.w, r0.h, r0.rotatable && allow_rotation⟩

lemma decode_ok {inst : Instance} {allow : Bool} {strat : String}
    {perm bits : List Nat} {sol : Solution}
    (h : decode inst allow strat perm bits = .ok sol) :
    ∃ rects sol0,
      List.Forall₂ (decodeRel inst allow) (perm.zip bits) rects ∧
      skyline ⟨inst.W, rects, inst.kerf_delta, inst.forbidden_zones⟩ allow = .ok sol0 ∧
      sol = { sol0 with method := "Meta-" ++ strat ++ "-SkylineDecode" } := by
  unfold decode at h
  simp only [bind, Except.bind] at h
  cases hm : (perm.zip bits).mapM
      (fun rb =>
        match id_to_rect inst.rectangles rb.1 with
        | some r => Except.ok (⟨r.id, r.w, r.h, r.rotatable && allow⟩ : Rectangle)
        | none => Except.error (MetaErr.keyNotFound rb.1)) with
  | error e => rw [hm] at h; cases h
  | ok rects =>
    rw [hm] at h
    dsimp only at h
    cases hs : skyline ⟨inst.W, rects, inst.kerf_delta, inst.forbidden_zones⟩ allow with
    | error e =>
      rw [hs] at h
      cases h
    | ok sol0 =>
      rw [hs] at h
      injection h with h
      refine ⟨rects, sol0, ?_, hs, h.symm⟩
      refine (mapM_ok_forall₂ hm).imp ?_
      intro rb rr hf
      cases hl : id_to_rect inst.rectangles rb.1 with
      | none => rw [hl] at hf; cases hf
      | some r0 =>
        rw [hl] at hf
        injection hf with hf
        exact ⟨r0, hl, hf.symm⟩

lemma decode_rects_map_id {inst : Instance} {allow : Bool}
    {perm bits : List Nat} {rects : List Rectangle}
    (hrel : List.Forall₂ (decodeRel inst allow) (perm.zip bits) rects)
    (hlen : perm.length ≤ bits.length) :
    rects.map Rectangle.id = perm := by
  have h1 : (perm.zip bits).map (fun rb => rb.1) = rects.map Rectangle.id := by
    refine forall₂_map_eq _ _ hrel ?_
    intro rb rr hr
    obtain ⟨r0, hl, heq⟩ := hr
    rw [heq]
    exact ((id_to_rect_mem hl).2).symm
  rw [← h1]
  have := List.map_fst_zip perm bits hlen
  exact this

lemma decode_rects_dims {inst : Instance} {allow : Bool}
    {perm bits : List Nat} {rects : List Rectangle}
    (hrel : List.Forall₂ (decodeRel inst allow) (perm.zip bits) rects)
    (hdims : ∀ r ∈ inst.rectangles, 1 ≤ r.w ∧ 1 ≤ r.h) :
    ∀ rr ∈ rects, 1 ≤ rr.w ∧ 1 ≤ rr.h := by
  intro rr hrr
  obtain ⟨rb, _, r0, hl, heq⟩ := forall₂_mem_right hrel rr hrr
  have hm := (id_to_rect_mem hl).1
  rw [heq]
  exact hdims r0 hm

lemma decode_map_perm {inst : Instance} {allow : Bool}
    {perm bits : List Nat} {rects : List Rectangle}
    (hrel : List.Forall₂ (decodeRel inst allow) (perm.zip bits) rects)
    (hlen : perm.length ≤ bits.length)
    (hnodup : (inst.rectangles.map Rectangle.id).Nodup)
    (hperm : perm.Perm (inst.rectangles.map Rectangle.id))
    (f : Rectangle → Nat)
    (hf : ∀ a b : Rectangle, a.w = b.w → a.h = b.h → f a = f b) :
    (rects.map f).Perm (inst.rectangles.map f) := by
  set gg : Nat → Nat := fun rid =>
    match id_to_rect inst.rectangles rid with
    | some r0 => f ⟨r0.id, r0.w, r0.h, r0.rotatable && allow⟩
    | none => 0 with hgg
  have h1 : (perm.zip bits).map (fun rb => gg rb.1) = rects.map f := by
    refine forall₂_map_eq _ _ hrel ?_
    intro rb rr hr
    obtain ⟨r0, hl, heq⟩ := hr
    rw [hgg]
    simp only [hl]
    rw [heq]
  have h2 : (perm.zip bits).map (fun rb => gg rb.1)
      = ((perm.zip bits).map Prod.fst).map gg := by
    rw [List.map_map]
    rfl
  have h3 : ((perm.zip bits).map Prod.fst) = perm := List.map_fst_zip perm bits hlen
  have h4 : (perm.map gg).Perm ((inst.rectangles.map Rectangle.id).map gg) :=
    hperm.map gg
  have h5 : (inst.rectangles.map Rectangle.id).map gg = inst.rectangles.map f := by
    rw [List.map_map]
    refine List.map_congr_left ?_
    intro r hr
    show gg r.id = f r
    rw [hgg]
    simp only [id_to_rect_self hnodup hr]
    exact hf _ _ rfl rfl
  rw [← h1, h2, h3]
  rw [h5] at h4
  exact h4

lemma placements_lock {inst : Instance} {allow : Bool} {order : List Rectangle}
    {ps : List Placement}
    (hrel : List.Forall₂ (placedRel allow) order ps)
    (hperm : order.Perm inst.rectangles)
    (hnodup : (inst.rectangles.map Rectangle.id).Nodup) :
    ∀ p ∈ ps, ∀ r ∈ inst.rectangles, r.id = p.rect_id → r.rotatable = false →
      p.rotated = false := by
  intro p hp r hr hid hrot
  obtain ⟨rr, hrr, hrel'⟩ := forall₂_mem_right hrel p hp
  have hrrmem : rr ∈ inst.rectangles := hperm.mem_iff.mp hrr
  have hre : rr = r := by
    refine List.inj_on_of_nodup_map hnodup hrrmem hr ?_
    rw [hrel'.1] at hid
    exact hid.symm
  subst hre
  rw [hrel'.2.2.2, orient_unrotatable rr allow true hrot]

lemma decode_check {inst : Instance} {allow : Bool} {strat : String}
    {perm bits : List Nat} {sol : Solution}
    (hW : 1 ≤ inst.W)
    (hdims : ∀ r ∈ inst.rectangles, 1 ≤ r.w ∧ 1 ≤ r.h)
    (hz : inst.forbidden_zones = [])
    (hperm : perm.Perm (inst.rectangles.map Rectangle.id))
    (hlen : perm.length ≤ bits.length)
    (h : decode inst allow strat perm bits = .ok sol) :
    check_feasibility sol inst = true := by
  obtain ⟨rects, sol0, hrel, hs, hsol⟩ := decode_ok h
  set tmp : Instance := ⟨inst.W, rects, inst.kerf_delta, inst.forbidden_zones⟩ with htmp
  obtain ⟨hbounds, hsep, hrel2⟩ :=
    @skyline_facts tmp allow sol0 hW (decode_rects_dims hrel hdims) hs
  have hids : (inst.rectangles.map Rectangle.id).toFinset
      = (sol0.placements.map Placement.rect_id).toFinset := by
    have h1 := @ids_toFinset_eq tmp allow _ _ hrel2 (skylineOrder_perm tmp allow)
    have h2 : tmp.rectangles.map Rectangle.id = perm := decode_rects_map_id hrel hlen
    rw [h2] at h1
    rw [← h1]
    exact (List.toFinset_eq_of_perm _ _ hperm).symm
  subst hsol
  exact check_feasibility_of hz hbounds hids hsep

lemma decode_lb {inst : Instance} {allow : Bool} {strat : String}
    {perm bits : List Nat} {sol : Solution}
    (hW : 1 ≤ inst.W) (hne : inst.rectangles ≠ [])
    (hdims : ∀ r ∈ inst.rectangles, 1 ≤ r.w ∧ 1 ≤ r.h)
    (hnodup : (inst.rectangles.map Rectangle.id).Nodup)
    (hperm : perm.Perm (inst.rectangles.map Rectangle.id))
    (hlen : perm.length ≤ bits.length)
    (h : decode inst allow strat perm bits = .ok sol) :
    max (area_lb inst) (maxh_lb inst allow) ≤ sol.H := by
  obtain ⟨rects, sol0, hrel, hs, hsol⟩ := decode_ok h
  set tmp : Instance := ⟨inst.W, rects, inst.kerf_delta, inst.forbidden_zones⟩ with htmp
  have hrne : rects ≠ [] := by
    intro hnil
    have hlen2 := List.Forall₂.length_eq hrel
    rw [hnil] at hlen2
    simp only [List.length_nil, List.length_zip] at hlen2
    have h3 : perm ≠ [] := by
      intro hp
      rw [hp] at hperm
      have := hperm.symm.eq_nil
      exact hne (List.map_eq_nil_iff.mp this)
    have h4 : 1 ≤ perm.length := List.length_pos_of_ne_nil h3
    omega
  have hlb := @skyline_lb tmp allow sol0 hW hrne (decode_rects_dims hrel hdims) hs
  have harea : area_lb tmp = area_lb inst := by
    unfold area_lb
    have := (decode_map_perm hrel hlen hnodup hperm Rectangle.area
      (fun a b hw hh => by unfold Rectangle.area; rw [hw, hh])).sum_eq
    rw [show tmp.rectangles = rects from rfl, show tmp.W = inst.W from rfl, this]
  have hmaxh : maxh_lb tmp allow = maxh_lb inst allow := by
    unfold maxh_lb
    cases allow with
    | true =>
      simp only [if_pos]
      exact perm_foldr_max (decode_map_perm hrel hlen hnodup hperm
        (fun r => min r.h r.w) (fun a b hw hh => by
          show min a.h a.w = min b.h b.w
          rw [hw, hh]))
    | false =>
      simp only [if_neg (by simp : ¬ (false : Bool) = true)]
      exact perm_foldr_max (decode_map_perm hrel hlen hnodup hperm
        (fun r => r.h) (fun a b hw hh => by
          show a.h = b.h
          rw [hh]))
  rw [harea, hmaxh] at hlb
  subst hsol
  exact hlb

lemma decode_lock {inst : Instance} {allow : Bool} {strat : String}
    {perm bits : List Nat} {sol : Solution}
    (hnodup : (inst.rectangles.map Rectangle.id).Nodup)
    (h : decode inst allow strat perm bits = .ok sol) :
    ∀ p ∈ sol.placements, ∀ r ∈ inst.rectangles, r.id = p.rect_id →
      r.rotatable = false → p.rotated = false := by
  obtain ⟨rects, sol0, hrel, hs, hsol⟩ := decode_ok h
  subst hsol
  intro p hp r hr hid hrot
  have hrel2 := skyline_rel hs
  obtain ⟨rr, hrr, hprel⟩ := forall₂_mem_right hrel2 p hp
  have hrrmem : rr ∈ rects :=
    (skylineOrder_perm ⟨inst.W, rects, inst.kerf_delta, inst.forbidden_zones⟩ allow).mem_iff.mp hrr
  obtain ⟨rb, _, r0, hl, heq⟩ := forall₂_mem_right hrel rr hrrmem
  obtain ⟨hr0mem, hr0id⟩ := id_to_rect_mem hl
  have hid2 : r0 = r := by
    refine List.inj_on_of_nodup_map hnodup hr0mem hr ?_
    show r0.id = r.id
    rw [hid]
    rw [hprel.1] at *
    have : rr.id = r0.id := by rw [heq]
    omega
  have hrrrot : rr.rotatable = false := by
    rw [heq]
    show (r0.rotatable && allow) = false
    rw [hid2, hrot]
    exact Bool.false_and allow
  rw [hprel.2.2.2, orient_unrotatable rr allow true hrrrot]

lemma decode_eq_of_len {inst : Instance} {allow : Bool} {strat : String}
    {perm : List Nat} {b1 b2 : List Nat} (hlen : b1.length = b2.length) :
    decode inst allow strat perm b1 = decode inst allow strat perm b2 := by
  unfold decode
  have hmap : ∀ (perm : List Nat) (b1 b2 : List Nat), b1.length = b2.length →
      (perm.zip b1).mapM (fun rb =>
        match id_to_rect inst.rectangles rb.1 with
        | some r => Except.ok (⟨r.id, r.w, r.h, r.rotatable && allow⟩ : Rectangle)
        | none => Except.error (MetaErr.keyNotFound rb.1))
      = (perm.zip b2).mapM (fun rb =>
        match id_to_rect inst.rectangles rb.1 with
        | some r => Except.ok (⟨r.id, r.w, r.h, r.rotatable && allow⟩ : Rectangle)
        | none => Except.error (MetaErr.keyNotFound rb.1)) := by
    intro p
    induction p with
    | nil => intro b1 b2 _; rfl
    | cons a rest ih =>
      intro b1 b2 hl
      cases b1 with
      | nil =>
        cases b2 with
        | nil => rfl
        | cons x xs => simp at hl
      | cons x xs =>
        cases b2 with
        | nil => simp at hl
        | cons y ys =>
          simp only [List.zip_cons_cons, List.mapM_cons]
          rw [ih xs ys (by simpa using hl)]
  rw [hmap perm b1 b2 hlen]

/-! Geometry-error characterization of the two decoders. -/

lemma orient_w_eq (r : Rectangle) (allow : Bool) :
    (orient r allow true).1 = if allow && r.rotatable then max r.w r.h else r.w := by
  unfold orient
  cases allow with
  | false => simp
  | true =>
    cases hrot : r.rotatable with
    | false => simp [hrot]
    | true =>
      by_cases hc : r.h ≤ r.w
      · simp [hrot, hc]
      · simp [hrot, hc]
        omega

lemma nfdhStep_error_iff {W d : Nat} {allow : Bool} {st : NfdhSt} {r : Rectangle}
    {k : Nat} {e : GeomError} :
    nfdhStep W d allow st (r, k) = .error e ↔
      W < (orient r allow true).1 ∧ e = ⟨r.id, (orient r allow true).1, W⟩ := by
  unfold nfdhStep
  dsimp only
  by_cases hg : W < (orient r allow true).1
  · rw [if_pos hg]
    constructor
    · intro h
      injection h with h
      exact ⟨hg, h.symm⟩
    · intro h
      rw [h.2]
  · rw [if_neg hg]
    constructor
    · intro h
      by_cases hc : st.x + (if st.first then 0 else d) + (orient r allow true).1 ≤ W
      · rw [if_pos hc] at h
        cases h
      · rw [if_neg hc] at h
        cases h
    · intro h
      exact absurd h.1 hg

lemma skylineStep_error_iff {W : Nat} {allow : Bool} {st : List Seg × List Placement}
    {r : Rectangle} {e : GeomError} :
    skylineStep W allow st r = .error e ↔
      W < (orient r allow true).1 ∧ e = ⟨r.id, (orient r allow true).1, W⟩ := by
  obtain ⟨segs, ps⟩ := st
  unfold skylineStep
  dsimp only
  by_cases hg : W < (orient r allow true).1
  · rw [if_pos hg]
    constructor
    · intro h
      injection h with h
      exact ⟨hg, h.symm⟩
    · intro h
      rw [h.2]
  · rw [if_neg hg]
    constructor
    · intro h
      cases hp : findPosition segs (orient r allow true).1 with
      | some pr => rw [hp] at h; cases h
      | none => rw [hp] at h; cases h
    · intro h
      exact absurd h.1 hg

lemma foldlM_error_payload {σ β : Type}
    {step : σ → β → Except GeomError σ}
    (P : β → Prop) (payload : β → GeomError)
    (hstep : ∀ st it e, step st it = .error e → P it ∧ e = payload it) :
    ∀ (l : List β) (st : σ) (e : GeomError),
    List.foldlM step st l = .error e → ∃ it ∈ l, P it ∧ e = payload it := by
  intro l
  induction l with
  | nil =>
    intro st e h
    simp only [List.foldlM] at h
    cases h
  | cons it rest ih =>
    intro st e h
    rw [show List.foldlM step st (it :: rest)
          = step st it >>= fun s1 => List.foldlM step s1 rest
        from by simp [List.foldlM]] at h
    cases hs : step st it with
    | error e0 =>
      rw [hs] at h
      injection h with h
      subst h
      exact ⟨it, List.mem_cons_self _ _, hstep st it e0 hs⟩
    | ok st1 =>
      rw [hs] at h
      obtain ⟨it', hm, hp⟩ := ih st1 e h
      exact ⟨it', List.mem_cons_of_mem _ hm, hp⟩

lemma foldlM_ok_all {σ β : Type}
    {step : σ → β → Except GeomError σ}
    (P : β → Prop)
    (hstep : ∀ st it st', step st it = .ok st' → ¬ P it) :
    ∀ (l : List β) (st st' : σ),
    List.foldlM step st l = .ok st' → ∀ it ∈ l, ¬ P it := by
  intro l
  induction l with
  | nil => intro st st' _ it hit; cases hit
  | cons it0 rest ih =>
    intro st st' h it hit
    rw [show List.foldlM step st (it0 :: rest)
          = step st it0 >>= fun s1 => List.foldlM step s1 rest
        from by simp [List.foldlM]] at h
    cases hs : step st it0 with
    | error e0 => rw [hs] at h; cases h
    | ok st1 =>
      rw [hs] at h
      rcases List.mem_cons.mp hit with hit | hit
      · subst hit
        exact hstep st it st1 hs
      · exact ih st1 st' h it hit

lemma nfdhStep_ok_guard {W d : Nat} {allow : Bool} {st st' : NfdhSt}
    {it : Rectangle × Nat} (h : nfdhStep W d allow st it = .ok st') :
    ¬ W < (orient it.1 allow true).1 := by
  intro hg
  obtain ⟨r, k⟩ := it
  unfold nfdhStep at h
  dsimp only at h
  rw [if_pos hg] at h
  cases h

lemma skylineStep_ok_guard {W : Nat} {allow : Bool} {st st' : List Seg × List Placement}
    {r : Rectangle} (h : skylineStep W allow st r = .ok st') :
    ¬ W < (orient r allow true).1 := by
  intro hg
  obtain ⟨segs, ps⟩ := st
  unfold skylineStep at h
  dsimp only at h
  rw [if_pos hg] at h
  cases h

lemma nfdh_items_mem {inst : Instance} {allow : Bool} {r : Rectangle} :
    r ∈ inst.rectangles ↔
      (r, (orient r allow true).2.1) ∈ sortDescBy (fun t => t.2)
        (inst.rectangles.map (fun r => (r, (orient r allow true).2.1))) := by
  rw [(sortDescBy_perm (fun t : Rectangle × Nat => t.2) _).mem_iff]
  constructor
  · intro h
    exact List.mem_map.mpr ⟨r, h, rfl⟩
  · intro h
    obtain ⟨r0, hr0, heq⟩ := List.mem_map.mp h
    have : r0 = r := congrArg Prod.fst heq
    rw [← this]
    exact hr0

lemma nfdh_error_payload {inst : Instance} {allow : Bool} {e : GeomError}
    (h : nfdh inst allow = .error e) :
    ∃ r ∈ inst.rectangles, inst.W < (orient r allow true).1 ∧
      e = ⟨r.id, (orient r allow true).1, inst.W⟩ := by
  simp only [nfdh] at h
  cases hf : List.foldlM (nfdhStep inst.W inst.kerf_delta allow) ⟨0, 0, 0, true, []⟩
      (sortDescBy (fun t => t.2)
        (inst.rectangles.map (fun r => (r, (orient r allow true).2.1)))) with
  | ok st =>
    rw [hf] at h
    simp only [Except.map] at h
    cases h
  | error e0 =>
    rw [hf] at h
    simp only [Except.map] at h
    injection h with h
    subst h
    obtain ⟨it, hm, hP, hpay⟩ := foldlM_error_payload
      (fun it => inst.W < (orient it.1 allow true).1)
      (fun it => ⟨it.1.id, (orient it.1 allow true).1, inst.W⟩)
      (fun st it e h => by
        obtain ⟨r, k⟩ := it
        exact nfdhStep_error_iff.mp h) _ _ _ hf
    have hperm := sortDescBy_perm (fun t : Rectangle × Nat => t.2)
      (inst.rectangles.map (fun r => (r, (orient r allow true).2.1)))
    have hmem : it ∈ inst.rectangles.map (fun r => (r, (orient r allow true).2.1)) :=
      hperm.mem_iff.mp hm
    obtain ⟨r0, hr0, heq⟩ := List.mem_map.mp hmem
    refine ⟨r0, hr0, ?_, ?_⟩
    · rw [show r0 = it.1 from by rw [← heq]]
      exact hP
    · rw [show r0 = it.1 from by rw [← heq]]
      exact hpay

lemma nfdh_error_iff {inst : Instance} {allow : Bool} :
    (∃ e, nfdh inst allow = .error e) ↔
      ∃ r ∈ inst.rectangles, inst.W < (orient r allow true).1 := by
  constructor
  · rintro ⟨e, he⟩
    obtain ⟨r, hr, hbad, _⟩ := nfdh_error_payload he
    exact ⟨r, hr, hbad⟩
  · rintro ⟨r, hr, hbad⟩
    cases hf : nfdh inst allow with
    | error e => exact ⟨e, rfl⟩
    | ok sol =>
      exfalso
      simp only [nfdh] at hf
      cases hff : List.foldlM (nfdhStep inst.W inst.kerf_delta allow) ⟨0, 0, 0, true, []⟩
          (sortDescBy (fun t => t.2)
            (inst.rectangles.map (fun r => (r, (orient r allow true).2.1)))) with
      | error e0 =>
        rw [hff] at hf
        simp only [Except.map] at hf
        cases hf
      | ok st =>
        have hall := foldlM_ok_all (fun it => inst.W < (orient it.1 allow true).1)
          (fun st it st' h => nfdhStep_ok_guard h) _ _ _ hff
        exact hall _ (nfdh_items_mem.mp hr) hbad

lemma skyline_error_payload {inst : Instance} {allow : Bool} {e : GeomError}
    (h : skyline inst allow = .error e) :
    ∃ r ∈ inst.rectangles, inst.W < (orient r allow true).1 ∧
      e = ⟨r.id, (orient r allow true).1, inst.W⟩ := by
  simp only [skyline] at h
  cases hf : List.foldlM (skylineStep inst.W allow) ([⟨0, inst.W, 0⟩], [])
      (sortDescBy (skylineKey allow) inst.rectangles) with
  | ok st =>
    rw [hf] at h
    simp only [Except.map] at h
    cases h
  | error e0 =>
    rw [hf] at h
    simp only [Except.map] at h
    injection h with h
    subst h
    obtain ⟨r0, hm, hP, hpay⟩ := foldlM_error_payload
      (fun r : Rectangle => inst.W < (orient r allow true).1)
      (fun r : Rectangle => ⟨r.id, (orient r allow true).1, inst.W⟩)
      (fun st r e h => skylineStep_error_iff.mp h) _ _ _ hf
    exact ⟨r0, (sortDescBy_perm (skylineKey allow) inst.rectangles).mem_iff.mp hm, hP, hpay⟩

lemma skyline_error_iff {inst : Instance} {allow : Bool} :
    (∃ e, skyline inst allow = .error e) ↔
      ∃ r ∈ inst.rectangles, inst.W < (orient r allow true).1 := by
  constructor
  · rintro ⟨e, he⟩
    obtain ⟨r, hr, hbad, _⟩ := skyline_error_payload he
    exact ⟨r, hr, hbad⟩
  · rintro ⟨r, hr, hbad⟩
    cases hf : skyline inst allow with
    | error e => exact ⟨e, rfl⟩
    | ok sol =>
      exfalso
      simp only [skyline] at hf
      cases hff : List.foldlM (skylineStep inst.W allow) ([⟨0, inst.W, 0⟩], [])
          (sortDescBy (skylineKey allow) inst.rectangles) with
      | error e0 =>
        rw [hff] at hf
        simp only [Except.map] at hf
        cases hf
      | ok st =>
        have hall := foldlM_ok_all (fun r : Rectangle => inst.W < (orient r allow true).1)
          (fun st r st' h => skylineStep_ok_guard h) _ _ _ hff
        exact hall _ ((sortDescBy_perm (skylineKey allow) inst.rectangles).mem_iff.mpr hr) hbad

/-! Shelf/level MILP lemmas. -/

lemma filter_map_sum {α : Type} (l : List α) (p : α → Bool) (f : α → Nat) :
    ((l.filter p).map f).sum = (l.map (fun x => if p x then f x else 0)).sum := by
  induction l with
  | nil => rfl
  | cons a t ih => by_cases h : p a <;> simp [h, ih]

lemma sum_map_add {α : Type} (l : List α) (f g : α → Nat) :
    (l.map (fun x => f x + g x)).sum = (l.map f).sum + (l.map g).sum := by
  induction l with
  | nil => rfl
  | cons a t ih => simp [ih]; omega

lemma sum_swap {α β : Type} (l1 : List α) (l2 : List β) (g : α → β → Nat) :
    (l1.map (fun x => (l2.map (g x)).sum)).sum
      = (l2.map (fun y => (l1.map (fun x => g x y)).sum)).sum := by
  induction l1 with
  | nil => simp
  | cons a t ih =>
    simp only [List.map_cons, List.sum_cons, ih, ← sum_map_add]

lemma sum_ite_count {α : Type} (l : List α) (p : α → Bool) (c : Nat) :
    (l.map (fun x => if p x then c else 0)).sum = c * (l.filter p).length := by
  induction l with
  | nil => simp
  | cons a t ih =>
    by_cases h : p a <;> simp [h, ih, Nat.mul_add, Nat.mul_succ] <;> omega

lemma sum_ne_zero_exists {α : Type} {l : List α} {f : α → Nat}
    (h : (l.map f).sum ≠ 0) : ∃ x ∈ l, f x ≠ 0 := by
  induction l with
  | nil => simp at h
  | cons a t ih =>
    simp only [List.map_cons, List.sum_cons] at h
    by_cases ha : f a = 0
    · rw [ha] at h
      simp only [Nat.zero_add] at h
      obtain ⟨x, hx, hfx⟩ := ih h
      exact ⟨x, List.mem_cons_of_mem _ hx, hfx⟩
    · exact ⟨a, List.mem_cons_self _ _, ha⟩

lemma mem_le_sum {α : Type} {l : List α} {f : α → Nat} {a : α} (h : a ∈ l) :
    f a ≤ (l.map f).sum := by
  induction l with
  | nil => cases h
  | cons b t ih =>
    simp only [List.map_cons, List.sum_cons]
    rcases List.mem_cons.mp h with h | h
    · subst h; omega
    · have := ih h; omega

lemma sum_le_sum_of_le {α : Type} {l : List α} {f g : α → Nat}
    (h : ∀ x ∈ l, f x ≤ g x) : (l.map f).sum ≤ (l.map g).sum := by
  induction l with
  | nil => simp
  | cons a t ih =>
    simp only [List.map_cons, List.sum_cons]
    have h1 := h a (List.mem_cons_self _ _)
    have h2 := ih (fun x hx => h x (List.mem_cons_of_mem _ hx))
    omega

lemma sum_map_mul_const {α : Type} (l : List α) (f : α → Nat) (c : Nat) :
    (l.map (fun x => f x * c)).sum = (l.map f).sum * c := by
  induction l with
  | nil => simp
  | cons a t ih => simp [ih, Nat.add_mul]

lemma foldr_max_le {l : List Nat} {c : Nat} (h : ∀ v ∈ l, v ≤ c) :
    l.foldr max 0 ≤ c := by
  induction l with
  | nil => exact Nat.zero_le c
  | cons a t ih =>
    simp only [List.foldr_cons]
    have h1 := h a (List.mem_cons_self _ _)
    have h2 := ih (fun v hv => h v (List.mem_cons_of_mem _ hv))
    omega

lemma maxTop_le {ps : List Placement} {c : Nat}
    (h : ∀ p ∈ ps, p.y + p.h_eff ≤ c) : maxTop ps ≤ c := by
  unfold maxTop
  apply foldr_max_le
  intro v hv
  obtain ⟨p, hp, hpv⟩ := List.mem_map.mp hv
  rw [← hpv]
  exact h p hp

lemma maxTop_attained {ps : List Placement} (h : ps ≠ []) :
    ∃ p ∈ ps, p.y + p.h_eff = maxTop ps := by
  have hne : ps.map (fun p => p.y + p.h_eff) ≠ [] := by
    intro hc
    exact h (List.map_eq_nil_iff.mp hc)
  have := foldr_max_mem _ hne
  obtain ⟨p, hp, hpv⟩ := List.mem_map.mp this
  exact ⟨p, hp, hpv⟩

lemma rectOf_mem {inst : Instance} {rid : Nat}
    (h : rid ∈ inst.rectangles.map Rectangle.id) :
    rectOf inst rid ∈ inst.rectangles ∧ (rectOf inst rid).id = rid := by
  obtain ⟨r, hr, hid⟩ := List.mem_map.mp h
  unfold rectOf
  cases hfind : inst.rectangles.find? (fun rr => rr.id == rid) with
  | none =>
    exfalso
    have := List.find?_eq_none.mp hfind r hr
    simp [hid] at this
  | some r0 =>
    constructor
    · exact List.mem_of_find?_eq_some hfind
    · have := List.find?_some hfind
      simpa using this

lemma rectOf_self {inst : Instance}
    (hnodup : (inst.rectangles.map Rectangle.id).Nodup)
    {r : Rectangle} (hr : r ∈ inst.rectangles) : rectOf inst r.id = r := by
  have hmem : r.id ∈ inst.rectangles.map Rectangle.id := List.mem_map.mpr ⟨r, hr, rfl⟩
  obtain ⟨h1, h2⟩ := rectOf_mem hmem
  exact List.inj_on_of_nodup_map hnodup h1 hr h2

lemma levelRow_char {inst : Instance} {allow : Bool} {a : LevelAssign}
    {ell y : Nat} : ∀ (l : List Nat) (x : Nat) (first : Bool),
    List.Forall₂ (fun rid p => p.rect_id = rid ∧ p.y = y ∧
      p.h_eff = levelEffH inst allow a ell rid ∧
      p.w_eff = (if allow && a.zV rid ell then (rectOf inst rid).h else (rectOf inst rid).w) ∧
      p.w_eff * p.h_eff = (rectOf inst rid).w * (rectOf inst rid).h)
      l (levelRow inst allow a ell y l x first) := by
  intro l
  induction l with
  | nil => intro x first; exact List.Forall₂.nil
  | cons rid rest ih =>
    intro x first
    refine List.Forall₂.cons ?_ (ih _ _)
    refine ⟨rfl, rfl, rfl, rfl, ?_⟩
    by_cases hc : (allow && a.zV rid ell) = true <;> simp [hc, Nat.mul_comm]

end SPP

namespace SPP

lemma levelRow_rot {inst : Instance} {allow : Bool} {a : LevelAssign} {ell y : Nat} :
    ∀ (l : List Nat) (x : Nat) (first : Bool),
    ∀ p ∈ levelRow inst allow a ell y l x first,
      p.rotated = (allow && a.zV p.rect_id ell) := by
  intro l
  induction l with
  | nil => intro x first p hp; cases hp
  | cons rid rest ih =>
    intro x first p hp
    rcases List.mem_cons.mp hp with h' | h'
    · subst h'; rfl
    · exact ih _ _ p h'

lemma levelConstraints_facts {inst : Instance} {allow : Bool} {L : Nat} {a : LevelAssign}
    (hdims : ∀ r ∈ inst.rectangles, 1 ≤ r.w ∧ 1 ≤ r.h)
    (h : levelConstraints inst allow L a = true) :
    (∀ r ∈ inst.rectangles,
      ((List.range L).map
        (fun ell => b2n (a.zH r.id ell) + b2n (zVeff allow a r.id ell))).sum = 1) ∧
    (∀ ell ∈ List.range L,
      (∀ rid ∈ levelIdsOn inst allow a ell,
        levelEffH inst allow a ell rid ≤ a.s ell ∧ 1 ≤ levelEffH inst allow a ell rid) ∧
      ((levelIdsOn inst allow a ell).map
        (fun rid => if allow && a.zV rid ell then (rectOf inst rid).h
                    else (rectOf inst rid).w)).sum ≤ inst.W) := by
  unfold levelConstraints at h
  simp only [Bool.and_eq_true, List.all_eq_true, decide_eq_true_eq, beq_iff_eq] at h
  obtain ⟨⟨⟨⟨⟨⟨hassign, hwidth⟩, hheight⟩, hmono⟩, hHv⟩, harea⟩, hmaxh⟩ := h
  refine ⟨hassign, ?_⟩
  intro ell hell
  have hH := hheight ell hell
  constructor
  · intro rid hrid
    have hfil := List.mem_filter.mp hrid
    obtain ⟨hrmem, hid⟩ := rectOf_mem hfil.1
    have hHr := hH (rectOf inst rid) hrmem
    rw [hid] at hHr
    unfold levelEffH
    by_cases hzv : (allow && a.zV rid ell) = true
    · rw [if_pos hzv]
      have hzveff : zVeff allow a rid ell = true := hzv
      rw [hzveff] at hHr
      simp only [b2n, if_true, Nat.mul_one] at hHr
      exact ⟨hHr.2, (hdims _ hrmem).1⟩
    · rw [if_neg hzv]
      have hzh : a.zH rid ell = true := by
        have hon := hfil.2
        unfold levelOn at hon
        simp only [Bool.or_eq_true] at hon
        rcases hon with h' | h'
        · exact h'
        · exact absurd h' hzv
      rw [hzh] at hHr
      simp only [b2n, if_true, Nat.mul_one] at hHr
      exact ⟨hHr.1, (hdims _ hrmem).2⟩
  · have hWc := hwidth ell hell
    have hkey : ((levelIdsOn inst allow a ell).map
        (fun rid => if allow && a.zV rid ell then (rectOf inst rid).h
                    else (rectOf inst rid).w)).sum
        = ((inst.rectangles.map Rectangle.id).map (fun rid =>
            (rectOf inst rid).w * b2n (a.zH rid ell) +
            (rectOf inst rid).h * b2n (zVeff allow a rid ell))).sum := by
      unfold levelIdsOn
      rw [filter_map_sum]
      refine congrArg List.sum (List.map_congr_left ?_)
      intro rid hrid
      obtain ⟨hrmem, hid⟩ := rectOf_mem hrid
      by_cases hon : levelOn allow a ell rid = true
      · rw [if_pos hon]
        have hsum1 := hassign (rectOf inst rid) hrmem
        rw [hid] at hsum1
        have hterm0 := mem_le_sum
          (f := fun ℓ => b2n (a.zH rid ℓ) + b2n (zVeff allow a rid ℓ)) hell
        rw [hsum1] at hterm0
        have hterm : b2n (a.zH rid ell) + b2n (zVeff allow a rid ell) ≤ 1 := hterm0
        by_cases hzv : (allow && a.zV rid ell) = true
        · have hzveff : zVeff allow a rid ell = true := hzv
          have hzh : a.zH rid ell = false := by
            cases hzh : a.zH rid ell
            · rfl
            · rw [hzh, hzveff] at hterm
              simp [b2n] at hterm
          rw [if_pos hzv, hzh, hzveff]
          simp [b2n]
        · have hzveff : zVeff allow a rid ell = false := by
            cases h' : zVeff allow a rid ell
            · rfl
            · exact absurd h' hzv
          have hzh : a.zH rid ell = true := by
            unfold levelOn at hon
            simp only [Bool.or_eq_true] at hon
            rcases hon with h' | h'
            · exact h'
            · exact absurd h' hzv
          rw [if_neg hzv, hzh, hzveff]
          simp [b2n]
      · rw [if_neg hon]
        simp only [levelOn, Bool.or_eq_true, not_or, Bool.not_eq_true] at hon
        have hzveff : zVeff allow a rid ell = false := hon.2
        rw [hon.1, hzveff]
        simp [b2n]
    by_cases hce : levelIdsOn inst allow a ell = []
    · rw [hce]
      exact Nat.zero_le _
    · rw [hkey]
      obtain ⟨rid0, hrid0⟩ := List.exists_mem_of_ne_nil _ hce
      have hfil0 := List.mem_filter.mp hrid0
      have h1 : 1 ≤ b2n (a.zH rid0 ell) + b2n (zVeff allow a rid0 ell) := by
        have hon0 := hfil0.2
        unfold levelOn at hon0
        simp only [Bool.or_eq_true] at hon0
        rcases hon0 with h' | h'
        · rw [h']; simp [b2n]
        · have hzveff : zVeff allow a rid0 ell = true := h'
          rw [hzveff]
          simp [b2n]
      have hmem0 := mem_le_sum
        (f := fun rid => b2n (a.zH rid ell) + b2n (zVeff allow a rid ell)) hfil0.1
      have hcnt : 1 ≤ ((inst.rectangles.map Rectangle.id).map
          (fun rid => b2n (a.zH rid ell) + b2n (zVeff allow a rid ell))).sum :=
        le_trans h1 hmem0
      have hd : (0:Int) ≤ (inst.kerf_delta : Int) *
          ((((inst.rectangles.map Rectangle.id).map
            (fun rid => b2n (a.zH rid ell) + b2n (zVeff allow a rid ell))).sum : Int) - 1) := by
        apply mul_nonneg
        · exact Int.natCast_nonneg _
        · have h2 : (1:Int) ≤ (((inst.rectangles.map Rectangle.id).map
              (fun rid => b2n (a.zH rid ell) + b2n (zVeff allow a rid ell))).sum : Int) := by
            exact_mod_cast hcnt
          linarith
      have hb : (inst.W : Int) * b2i (a.u ell) ≤ (inst.W : Int) := by
        cases a.u ell
        · simp [b2i]
        · simp [b2i]
      have hfin : (((inst.rectangles.map Rectangle.id).map (fun rid =>
          (rectOf inst rid).w * b2n (a.zH rid ell) +
          (rectOf inst rid).h * b2n (zVeff allow a rid ell))).sum : Int)
            ≤ (inst.W : Int) := by
        linarith [hWc]
      exact_mod_cast hfin

end SPP

namespace SPP

lemma levelFold_inv {inst : Instance} {allow : Bool} {a : LevelAssign} :
    ∀ (l : List Nat) (st st' : Nat × List Placement),
    (∀ ell ∈ l,
      (∀ rid ∈ levelIdsOn inst allow a ell,
        levelEffH inst allow a ell rid ≤ a.s ell) ∧
      ((levelIdsOn inst allow a ell).map
        (fun rid => if allow && a.zV rid ell then (rectOf inst rid).h
                    else (rectOf inst rid).w)).sum ≤ inst.W) →
    (st.2.map (fun p => p.w_eff * p.h_eff)).sum ≤ inst.W * maxTop st.2 →
    (∀ p ∈ st.2, p.y + p.h_eff ≤ st.1) →
    List.foldl
      (fun (st : Nat × List Placement) ell =>
        let s_val := a.s ell
        if s_val = 0 then st
        else
          let sorted := sortDescBy (levelEffH inst allow a ell)
            (levelIdsOn inst allow a ell)
          let row := levelRow inst allow a ell st.1 sorted 0 true
          (st.1 + s_val + inst.kerf_delta, st.2 ++ row))
      st l = st' →
    (∃ added, st'.2 = st.2 ++ added) ∧
    (st'.2.map (fun p => p.w_eff * p.h_eff)).sum ≤ inst.W * maxTop st'.2 ∧
    (∀ p ∈ st'.2, p.y + p.h_eff ≤ st'.1) ∧
    (st'.2.map (fun p => p.w_eff * p.h_eff)).sum
      = (st.2.map (fun p => p.w_eff * p.h_eff)).sum
        + (l.map (fun ell => if a.s ell = 0 then 0 else
            ((levelIdsOn inst allow a ell).map
              (fun rid => (rectOf inst rid).w * (rectOf inst rid).h)).sum)).sum ∧
    (∀ ell ∈ l, a.s ell ≠ 0 → ∀ rid ∈ levelIdsOn inst allow a ell,
      ∃ p ∈ st'.2, p.rect_id = rid ∧ p.h_eff = levelEffH inst allow a ell rid) := by
  intro l
  induction l with
  | nil =>
    intro st st' hlv hA hT hf
    simp only [List.foldl_nil] at hf
    subst hf
    refine ⟨⟨[], (List.append_nil _).symm⟩, hA, hT, by simp, ?_⟩
    intro ell hell
    cases hell
  | cons e rest ih =>
    intro st st' hlv hA hT hf
    rw [List.foldl_cons] at hf
    have hrest : ∀ ell ∈ rest,
        (∀ rid ∈ levelIdsOn inst allow a ell,
          levelEffH inst allow a ell rid ≤ a.s ell) ∧
        ((levelIdsOn inst allow a ell).map
          (fun rid => if allow && a.zV rid ell then (rectOf inst rid).h
                      else (rectOf inst rid).w)).sum ≤ inst.W :=
      fun ell hell => hlv ell (List.mem_cons_of_mem _ hell)
    by_cases hs0 : a.s e = 0
    · rw [if_pos hs0] at hf
      obtain ⟨hadded, hA', hT', hsum', hmem'⟩ := ih st st' hrest hA hT hf
      refine ⟨hadded, hA', hT', ?_, ?_⟩
      · rw [hsum']
        simp only [List.map_cons, List.sum_cons, if_pos hs0, Nat.zero_add]
      · intro ell hell hsne rid hrid
        rcases List.mem_cons.mp hell with h' | h'
        · subst h'
          exact absurd hs0 hsne
        · exact hmem' ell h' hsne rid hrid
    · rw [if_neg hs0] at hf
      have hf2 : List.foldl
          (fun (st : Nat × List Placement) ell =>
            let s_val := a.s ell
            if s_val = 0 then st
            else
              let sorted := sortDescBy (levelEffH inst allow a ell)
                (levelIdsOn inst allow a ell)
              let row := levelRow inst allow a ell st.1 sorted 0 true
              (st.1 + s_val + inst.kerf_delta, st.2 ++ row))
          (st.1 + a.s e + inst.kerf_delta,
           st.2 ++ levelRow inst allow a e st.1
             (sortDescBy (levelEffH inst allow a e) (levelIdsOn inst allow a e)) 0 true)
          rest = st' := hf
      have hchar := @levelRow_char inst allow a e st.1
        (sortDescBy (levelEffH inst allow a e) (levelIdsOn inst allow a e)) 0 true
      have hperm := sortDescBy_perm (levelEffH inst allow a e) (levelIdsOn inst allow a e)
      have hrowfact : ∀ p ∈ levelRow inst allow a e st.1
          (sortDescBy (levelEffH inst allow a e) (levelIdsOn inst allow a e)) 0 true,
          p.y = st.1 ∧ p.h_eff ≤ a.s e := by
        intro p hp
        obtain ⟨rid, hrid, hrel⟩ := forall₂_mem_right hchar p hp
        have hrid2 : rid ∈ levelIdsOn inst allow a e := hperm.mem_iff.mp hrid
        have heff := (hlv e (List.mem_cons_self _ _)).1 rid hrid2
        exact ⟨hrel.2.1, by rw [hrel.2.2.1]; exact heff⟩
      have hT1 : ∀ p ∈ st.2 ++ levelRow inst allow a e st.1
          (sortDescBy (levelEffH inst allow a e) (levelIdsOn inst allow a e)) 0 true,
          p.y + p.h_eff ≤ st.1 + a.s e + inst.kerf_delta := by
        intro p hp
        rcases List.mem_append.mp hp with h' | h'
        · have := hT p h'
          omega
        · obtain ⟨hy, hh⟩ := hrowfact p h'
          omega
      have hrowW : ((levelRow inst allow a e st.1
          (sortDescBy (levelEffH inst allow a e) (levelIdsOn inst allow a e)) 0 true).map
            (fun p => p.w_eff)).sum ≤ inst.W := by
        have hmapeq := forall₂_map_eq
          (fun rid => if allow && a.zV rid e then (rectOf inst rid).h
                      else (rectOf inst rid).w)
          (fun p => p.w_eff) hchar
          (fun rid p hrel => hrel.2.2.2.1.symm)
        rw [← hmapeq]
        have hps := (hperm.map (fun rid => if allow && a.zV rid e then (rectOf inst rid).h
            else (rectOf inst rid).w)).sum_eq
        rw [hps]
        exact (hlv e (List.mem_cons_self _ _)).2
      have hrowA : ((levelRow inst allow a e st.1
          (sortDescBy (levelEffH inst allow a e) (levelIdsOn inst allow a e)) 0 true).map
            (fun p => p.w_eff * p.h_eff)).sum
          = ((levelIdsOn inst allow a e).map
              (fun rid => (rectOf inst rid).w * (rectOf inst rid).h)).sum := by
        have hmapeq := forall₂_map_eq
          (fun rid => (rectOf inst rid).w * (rectOf inst rid).h)
          (fun p => p.w_eff * p.h_eff) hchar
          (fun rid p hrel => hrel.2.2.2.2.symm)
        rw [← hmapeq]
        exact (hperm.map (fun rid => (rectOf inst rid).w * (rectOf inst rid).h)).sum_eq
      have hA1 : (((st.2 ++ levelRow inst allow a e st.1
          (sortDescBy (levelEffH inst allow a e) (levelIdsOn inst allow a e)) 0 true)).map
            (fun p => p.w_eff * p.h_eff)).sum
          ≤ inst.W * maxTop (st.2 ++ levelRow inst allow a e st.1
            (sortDescBy (levelEffH inst allow a e) (levelIdsOn inst allow a e)) 0 true) := by
        rw [List.map_append, List.sum_append, maxTop_append]
        by_cases hrow0 : levelRow inst allow a e st.1
            (sortDescBy (levelEffH inst allow a e) (levelIdsOn inst allow a e)) 0 true = []
        · rw [hrow0]
          simp only [List.map_nil, List.sum_nil, Nat.add_zero, maxTop, List.foldr_nil,
            Nat.max_zero]
          exact hA
        · obtain ⟨pstar, hpstar, hpeq⟩ := maxTop_attained hrow0
          have hstar := hrowfact pstar hpstar
          have hst1le : st.1 ≤ maxTop (levelRow inst allow a e st.1
              (sortDescBy (levelEffH inst allow a e) (levelIdsOn inst allow a e)) 0 true) := by
            rw [← hpeq, hstar.1]
            omega
          have hMle : maxTop st.2 ≤ st.1 := maxTop_le hT
          have hrow_le : ∀ p ∈ levelRow inst allow a e st.1
              (sortDescBy (levelEffH inst allow a e) (levelIdsOn inst allow a e)) 0 true,
              p.y + p.h_eff ≤ maxTop (levelRow inst allow a e st.1
                (sortDescBy (levelEffH inst allow a e) (levelIdsOn inst allow a e)) 0 true) := by
            intro p hp
            exact le_foldr_max (List.mem_map.mpr ⟨p, hp, rfl⟩)
          have hSrow : ((levelRow inst allow a e st.1
              (sortDescBy (levelEffH inst allow a e) (levelIdsOn inst allow a e)) 0 true).map
                (fun p => p.w_eff * p.h_eff)).sum
              ≤ inst.W * (maxTop (levelRow inst allow a e st.1
                (sortDescBy (levelEffH inst allow a e) (levelIdsOn inst allow a e)) 0 true)
                  - st.1) := by
            have hstep1 : ((levelRow inst allow a e st.1
                (sortDescBy (levelEffH inst allow a e) (levelIdsOn inst allow a e)) 0 true).map
                  (fun p => p.w_eff * p.h_eff)).sum
                ≤ ((levelRow inst allow a e st.1
                  (sortDescBy (levelEffH inst allow a e) (levelIdsOn inst allow a e)) 0 true).map
                    (fun p => p.w_eff * (maxTop (levelRow inst allow a e st.1
                      (sortDescBy (levelEffH inst allow a e) (levelIdsOn inst allow a e)) 0 true)
                        - st.1))).sum := by
              apply sum_le_sum_of_le
              intro p hp
              apply Nat.mul_le_mul_left
              have h1 := hrow_le p hp
              have h2 := (hrowfact p hp).1
              omega
            have hstep2 : ((levelRow inst allow a e st.1
                (sortDescBy (levelEffH inst allow a e) (levelIdsOn inst allow a e)) 0 true).map
                  (fun p => p.w_eff * (maxTop (levelRow inst allow a e st.1
                    (sortDescBy (levelEffH inst allow a e) (levelIdsOn inst allow a e)) 0 true)
                      - st.1))).sum
                = ((levelRow inst allow a e st.1
                  (sortDescBy (levelEffH inst allow a e) (levelIdsOn inst allow a e)) 0 true).map
                    (fun p => p.w_eff)).sum * (maxTop (levelRow inst allow a e st.1
                      (sortDescBy (levelEffH inst allow a e) (levelIdsOn inst allow a e)) 0 true)
                        - st.1) :=
              sum_map_mul_const _ _ _
            have hstep3 := Nat.mul_le_mul_right (maxTop (levelRow inst allow a e st.1
              (sortDescBy (levelEffH inst allow a e) (levelIdsOn inst allow a e)) 0 true)
                - st.1) hrowW
            calc ((levelRow inst allow a e st.1
                (sortDescBy (levelEffH inst allow a e) (levelIdsOn inst allow a e)) 0 true).map
                  (fun p => p.w_eff * p.h_eff)).sum
                ≤ _ := hstep1
              _ = _ := hstep2
              _ ≤ _ := hstep3
          have hmax : max (maxTop st.2) (maxTop (levelRow inst allow a e st.1
              (sortDescBy (levelEffH inst allow a e) (levelIdsOn inst allow a e)) 0 true))
              = maxTop (levelRow inst allow a e st.1
                (sortDescBy (levelEffH inst allow a e) (levelIdsOn inst allow a e)) 0 true) :=
            Nat.max_eq_right (le_trans hMle hst1le)
          rw [hmax]
          have hfinal : maxTop st.2 + (maxTop (levelRow inst allow a e st.1
              (sortDescBy (levelEffH inst allow a e) (levelIdsOn inst allow a e)) 0 true)
                - st.1) ≤ maxTop (levelRow inst allow a e st.1
                  (sortDescBy (levelEffH inst allow a e) (levelIdsOn inst allow a e)) 0 true) := by
            omega
          calc (st.2.map (fun p => p.w_eff * p.h_eff)).sum
              + ((levelRow inst allow a e st.1
                (sortDescBy (levelEffH inst allow a e) (levelIdsOn inst allow a e)) 0 true).map
                  (fun p => p.w_eff * p.h_eff)).sum
              ≤ inst.W * maxTop st.2 + inst.W * (maxTop (levelRow inst allow a e st.1
                (sortDescBy (levelEffH inst allow a e) (levelIdsOn inst allow a e)) 0 true)
                  - st.1) := Nat.add_le_add hA hSrow
            _ = inst.W * (maxTop st.2 + (maxTop (levelRow inst allow a e st.1
                (sortDescBy (levelEffH inst allow a e) (levelIdsOn inst allow a e)) 0 true)
                  - st.1)) := (Nat.mul_add _ _ _).symm
            _ ≤ inst.W * maxTop (levelRow inst allow a e st.1
                (sortDescBy (levelEffH inst allow a e) (levelIdsOn inst allow a e)) 0 true) :=
              Nat.mul_le_mul_left _ hfinal
      obtain ⟨⟨added, hadded⟩, hA', hT', hsum', hmem'⟩ := ih _ st' hrest hA1 hT1 hf2
      refine ⟨⟨levelRow inst allow a e st.1
          (sortDescBy (levelEffH inst allow a e) (levelIdsOn inst allow a e)) 0 true ++ added,
          ?_⟩, hA', hT', ?_, ?_⟩
      · rw [hadded, List.append_assoc]
      · rw [hsum', List.map_append, List.sum_append, hrowA]
        simp only [List.map_cons, List.sum_cons, if_neg hs0]
        omega
      · intro ell hell hsne rid hrid
        rcases List.mem_cons.mp hell with h' | h'
        · subst h'
          have hrid2 : rid ∈ sortDescBy (levelEffH inst allow a ell)
              (levelIdsOn inst allow a ell) :=
            (sortDescBy_perm _ _).mem_iff.mpr hrid
          obtain ⟨p, hp, hrel⟩ := forall₂_mem_left hchar rid hrid2
          refine ⟨p, ?_, hrel.1, hrel.2.2.1⟩
          rw [hadded]
          exact List.mem_append_left _ (List.mem_append_right _ hp)
        · exact hmem' ell h' hsne rid hrid

end SPP

namespace SPP

lemma levelDecode_lock {inst : Instance} {L : Nat} {a : LevelAssign} :
    ∀ p ∈ levelDecode inst false L a, p.rotated = false := by
  have haux : ∀ (l : List Nat) (st : Nat × List Placement),
      (∀ p ∈ st.2, p.rotated = false) →
      ∀ p ∈ (List.foldl
        (fun (st : Nat × List Placement) ell =>
          let s_val := a.s ell
          if s_val = 0 then st
          else
            let sorted := sortDescBy (levelEffH inst false a ell)
              (levelIdsOn inst false a ell)
            let row := levelRow inst false a ell st.1 sorted 0 true
            (st.1 + s_val + inst.kerf_delta, st.2 ++ row))
        st l).2, p.rotated = false := by
    intro l
    induction l with
    | nil => intro st hst p hp; exact hst p hp
    | cons e rest ih =>
      intro st hst p hp
      rw [List.foldl_cons] at hp
      by_cases hs0 : a.s e = 0
      · rw [if_pos hs0] at hp
        exact ih st hst p hp
      · rw [if_neg hs0] at hp
        refine ih _ ?_ p hp
        intro q hq
        rcases List.mem_append.mp hq with h' | h'
        · exact hst q h'
        · have := levelRow_rot _ _ _ q h'
          rw [this]
          exact Bool.false_and _
  intro p hp
  exact haux (List.range L) (0, []) (fun q hq => absurd hq (List.not_mem_nil q)) p hp

lemma level_lb {inst : Instance} {allow : Bool} {L : Nat} {a : LevelAssign}
    (hW : 1 ≤ inst.W) (hne : inst.rectangles ≠ [])
    (hdims : ∀ r ∈ inst.rectangles, 1 ≤ r.w ∧ 1 ≤ r.h)
    (hnodup : (inst.rectangles.map Rectangle.id).Nodup)
    (hcon : levelConstraints inst allow L a = true) :
    max (area_lb inst) (maxh_lb inst allow) ≤ levelHval inst allow L a := by
  obtain ⟨hassign, hlevel⟩ := levelConstraints_facts hdims hcon
  obtain ⟨-, harea, htops, hsum, hmem⟩ :=
    @levelFold_inv inst allow a
      (List.range L) (0, ([] : List Placement)) _
      (fun ell hell => ⟨fun rid hrid => ((hlevel ell hell).1 rid hrid).1,
        (hlevel ell hell).2⟩)
      (by simp [maxTop]) (fun p hp => absurd hp (List.not_mem_nil p)) rfl
  have htot : (((List.foldl
      (fun (st : Nat × List Placement) ell =>
        let s_val := a.s ell
        if s_val = 0 then st
        else
          let sorted := sortDescBy (levelEffH inst allow a ell)
            (levelIdsOn inst allow a ell)
          let row := levelRow inst allow a ell st.1 sorted 0 true
          (st.1 + s_val + inst.kerf_delta, st.2 ++ row))
      (0, ([] : List Placement)) (List.range L)).2.map
        (fun p => p.w_eff * p.h_eff)).sum)
      = (inst.rectangles.map Rectangle.area).sum := by
    rw [hsum]
    simp only [List.map_nil, List.sum_nil, Nat.zero_add]
    have h1 : ∀ ell ∈ List.range L,
        (if a.s ell = 0 then 0 else
          ((levelIdsOn inst allow a ell).map
            (fun rid => (rectOf inst rid).w * (rectOf inst rid).h)).sum)
        = ((levelIdsOn inst allow a ell).map
            (fun rid => (rectOf inst rid).w * (rectOf inst rid).h)).sum := by
      intro ell hell
      by_cases hs : a.s ell = 0
      · rw [if_pos hs]
        have hnil : levelIdsOn inst allow a ell = [] := by
          by_contra h'
          obtain ⟨rid, hrid⟩ := List.exists_mem_of_ne_nil _ h'
          have := (hlevel ell hell).1 rid hrid
          omega
        rw [hnil]
        rfl
      · rw [if_neg hs]
    rw [List.map_congr_left h1]
    have h2 : ∀ ell ∈ List.range L,
        ((levelIdsOn inst allow a ell).map
          (fun rid => (rectOf inst rid).w * (rectOf inst rid).h)).sum
        = ((inst.rectangles.map Rectangle.id).map
            (fun rid => if levelOn allow a ell rid then
              (rectOf inst rid).w * (rectOf inst rid).h else 0)).sum := by
      intro ell hell
      unfold levelIdsOn
      exact filter_map_sum _ _ _
    rw [List.map_congr_left h2]
    rw [sum_swap (List.range L) (inst.rectangles.map Rectangle.id)
      (fun ell rid => if levelOn allow a ell rid then
        (rectOf inst rid).w * (rectOf inst rid).h else 0)]
    have h3 : ∀ rid ∈ inst.rectangles.map Rectangle.id,
        ((List.range L).map (fun ell => if levelOn allow a ell rid then
          (rectOf inst rid).w * (rectOf inst rid).h else 0)).sum
        = (rectOf inst rid).w * (rectOf inst rid).h := by
      intro rid hridmem
      obtain ⟨hrmem, hid⟩ := rectOf_mem hridmem
      have hsum1 := hassign (rectOf inst rid) hrmem
      rw [hid] at hsum1
      have hbn : ∀ ell ∈ List.range L, b2n (levelOn allow a ell rid)
          = if levelOn allow a ell rid then 1 else 0 := fun ell _ => rfl
      have hlen : ((List.range L).map
          (fun ell => b2n (levelOn allow a ell rid))).sum
          = ((List.range L).filter (fun ell => levelOn allow a ell rid)).length := by
        rw [List.map_congr_left hbn, sum_ite_count, Nat.one_mul]
      have hup : ((List.range L).map (fun ell => b2n (levelOn allow a ell rid))).sum
          ≤ ((List.range L).map
            (fun ell => b2n (a.zH rid ell) + b2n (zVeff allow a rid ell))).sum := by
        apply sum_le_sum_of_le
        intro ell hell
        cases hzh : a.zH rid ell <;> cases hzv : allow && a.zV rid ell <;>
          simp [levelOn, zVeff, b2n, hzh, hzv]
      have hlow : ((List.range L).map
          (fun ell => b2n (a.zH rid ell) + b2n (zVeff allow a rid ell))).sum
          ≤ ((List.range L).map
            (fun ell => b2n (levelOn allow a ell rid) * 2)).sum := by
        apply sum_le_sum_of_le
        intro ell hell
        cases hzh : a.zH rid ell <;> cases hzv : allow && a.zV rid ell <;>
          simp [levelOn, zVeff, b2n, hzh, hzv]
      rw [sum_map_mul_const, hlen] at hlow
      rw [hsum1] at hup hlow
      rw [hlen] at hup
      have hcount : ((List.range L).filter (fun ell => levelOn allow a ell rid)).length = 1 := by
        omega
      rw [sum_ite_count, hcount, Nat.mul_one]
    rw [List.map_congr_left h3, List.map_map]
    refine congrArg List.sum (List.map_congr_left ?_)
    intro r hr
    show (rectOf inst r.id).w * (rectOf inst r.id).h = r.area
    rw [rectOf_self hnodup hr]
    rfl
  rw [htot] at hsum
  apply Nat.max_le.mpr
  constructor
  · rw [htot] at harea
    exact ceil_div_le hW harea
  · have hget : ∀ r ∈ inst.rectangles, ∃ ell ∈ List.range L,
        levelOn allow a ell r.id = true := by
      intro r hr
      have hs1 := hassign r hr
      have hne0 : ((List.range L).map
          (fun ell => b2n (a.zH r.id ell) + b2n (zVeff allow a r.id ell))).sum ≠ 0 := by
        rw [hs1]
        omega
      obtain ⟨ell, hell, hterm⟩ := sum_ne_zero_exists hne0
      refine ⟨ell, hell, ?_⟩
      cases hzh : a.zH r.id ell <;> cases hzv : allow && a.zV r.id ell <;>
        simp [levelOn, zVeff, b2n, hzh, hzv] at hterm ⊢
    have hplaced : ∀ r ∈ inst.rectangles, ∃ p ∈ (List.foldl
        (fun (st : Nat × List Placement) ell =>
          let s_val := a.s ell
          if s_val = 0 then st
          else
            let sorted := sortDescBy (levelEffH inst allow a ell)
              (levelIdsOn inst allow a ell)
            let row := levelRow inst allow a ell st.1 sorted 0 true
            (st.1 + s_val + inst.kerf_delta, st.2 ++ row))
        (0, ([] : List Placement)) (List.range L)).2,
        (p.h_eff = r.w ∨ p.h_eff = r.h) ∧ (allow = false → p.h_eff = r.h) := by
      intro r hr
      obtain ⟨ell, hell, hon⟩ := hget r hr
      have hrid : r.id ∈ levelIdsOn inst allow a ell :=
        List.mem_filter.mpr ⟨List.mem_map.mpr ⟨r, hr, rfl⟩, hon⟩
      have heff := (hlevel ell hell).1 r.id hrid
      have hsne : a.s ell ≠ 0 := by omega
      obtain ⟨p, hp, hpid, hpeff⟩ := hmem ell hell hsne r.id hrid
      have hro := rectOf_self hnodup hr
      refine ⟨p, hp, ?_, ?_⟩
      · rw [hpeff]
        unfold levelEffH
        rw [hro]
        by_cases hzv : (allow && a.zV r.id ell) = true
        · rw [if_pos hzv]
          exact Or.inl rfl
        · rw [if_neg hzv]
          exact Or.inr rfl
      · intro hfa
        rw [hpeff]
        unfold levelEffH
        rw [hro, hfa]
        rw [if_neg (by simp)]
    cases hallow : allow
    · subst hallow
      have hne' : inst.rectangles.map (fun r => r.h) ≠ [] := by
        simp [hne]
      have hmem0 := foldr_max_mem _ hne'
      obtain ⟨rstar, hrstar, hkey⟩ := List.mem_map.mp hmem0
      obtain ⟨p, hp, -, hps⟩ := hplaced rstar hrstar
      have hps' := hps rfl
      have htopp : p.y + p.h_eff ≤ maxTop (List.foldl
          (fun (st : Nat × List Placement) ell =>
            let s_val := a.s ell
            if s_val = 0 then st
            else
              let sorted := sortDescBy (levelEffH inst false a ell)
                (levelIdsOn inst false a ell)
              let row := levelRow inst false a ell st.1 sorted 0 true
              (st.1 + s_val + inst.kerf_delta, st.2 ++ row))
          (0, ([] : List Placement)) (List.range L)).2 :=
        le_foldr_max (List.mem_map.mpr ⟨p, hp, rfl⟩)
      show maxh_lb inst false ≤ levelHval inst false L a
      have hgoal : maxh_lb inst false = rstar.h := hkey.symm
      rw [hgoal]
      have hle : rstar.h ≤ p.y + p.h_eff := by
        rw [← hps']
        omega
      exact le_trans hle htopp
    · subst hallow
      have hne' : inst.rectangles.map (fun r => min r.h r.w) ≠ [] := by
        simp [hne]
      have hmem0 := foldr_max_mem _ hne'
      obtain ⟨rstar, hrstar, hkey⟩ := List.mem_map.mp hmem0
      obtain ⟨p, hp, hpor, -⟩ := hplaced rstar hrstar
      have htopp : p.y + p.h_eff ≤ maxTop (List.foldl
          (fun (st : Nat × List Placement) ell =>
            let s_val := a.s ell
            if s_val = 0 then st
            else
              let sorted := sortDescBy (levelEffH inst true a ell)
                (levelIdsOn inst true a ell)
              let row := levelRow inst true a ell st.1 sorted 0 true
              (st.1 + s_val + inst.kerf_delta, st.2 ++ row))
          (0, ([] : List Placement)) (List.range L)).2 :=
        le_foldr_max (List.mem_map.mpr ⟨p, hp, rfl⟩)
      show maxh_lb inst true ≤ levelHval inst true L a
      have hgoal : maxh_lb inst true = min rstar.h rstar.w := hkey.symm
      rw [hgoal]
      have hle : min rstar.h rstar.w ≤ p.y + p.h_eff := by
        rcases hpor with h' | h' <;> rw [← h'] <;> omega
      exact le_trans hle htopp

end SPP

namespace SPP

lemma coord_lb {inst : Instance} {allow : Bool} {Mx My : Int} {a : CoordAssign}
    (h : coordConstraints inst allow Mx My a = true) :
    max (area_lb inst) (maxh_lb inst allow) ≤ coordHval inst allow a := by
  unfold coordConstraints at h
  simp only [Bool.and_eq_true, decide_eq_true_eq, List.all_eq_true, beq_iff_eq] at h
  obtain ⟨⟨⟨⟨⟨h1, h2⟩, h3⟩, harea⟩, hmaxh⟩, h6⟩ := h
  unfold coordHval
  by_cases hHv : a.Hv ≠ 0
  · rw [if_pos hHv]
    exact Nat.max_le.mpr ⟨harea, hmaxh⟩
  · rw [if_neg hHv]
    have h0 : a.Hv = 0 := by omega
    rw [h0] at harea hmaxh
    exact Nat.max_le.mpr
      ⟨le_trans harea (Nat.zero_le _), le_trans hmaxh (Nat.zero_le _)⟩

lemma coordDecode_lock {inst : Instance} {allow : Bool} {a : CoordAssign}
    (hnodup : (inst.rectangles.map Rectangle.id).Nodup) :
    ∀ p ∈ coordDecode inst allow a, ∀ r ∈ inst.rectangles,
      r.id = p.rect_id → r.rotatable = false → p.rotated = false := by
  intro p hp r hr hid hrot
  obtain ⟨rect, hrect, heq⟩ := List.mem_map.mp hp
  by_cases hc : (allow && rect.rotatable) = true
  · rw [if_pos hc] at heq
    have hpid : p.rect_id = rect.id := by rw [← heq]
    have hre : r = rect :=
      List.inj_on_of_nodup_map hnodup hr hrect (by rw [hid, hpid])
    rw [hre] at hrot
    rw [hrot] at hc
    simp at hc
  · rw [if_neg hc] at heq
    rw [← heq]

end SPP

namespace SPP

lemma tiles_sum : ∀ {segs : List Seg} {pos stop : Nat},
    tiles pos stop segs = true → pos + (segs.map Seg.w).sum = stop := by
  intro segs
  induction segs with
  | nil =>
    intro pos stop h
    simp only [tiles, beq_iff_eq] at h
    simpa using h
  | cons s rest ih =>
    intro pos stop h
    obtain ⟨h1, h2, h3⟩ := tiles_cons_iff.mp h
    have := ih h3
    simp only [List.map_cons, List.sum_cons]
    omega

lemma warmStartLookup_correct {inst : Instance}
    (hids : ∀ (k : Nat) (hk : k < inst.rectangles.length),
      (inst.rectangles.get ⟨k, hk⟩).id = k + 1) :
    ∀ r ∈ inst.rectangles, warmStartLookup inst r.id = some r := by
  intro r hr
  obtain ⟨⟨k, hk⟩, hget⟩ := List.mem_iff_get.mp hr
  have hid : r.id = k + 1 := by
    rw [← hget]
    exact hids k hk
  unfold warmStartLookup pyGet
  rw [hid]
  rw [if_pos (by push_cast; omega)]
  have htn : (((k + 1 : Nat) : Int) - 1).toNat = k := by omega
  rw [htn]
  rw [List.get?_eq_get hk]
  rw [hget]

lemma warmStartLookup_oob {inst : Instance} {rid : Nat}
    (h : inst.rectangles.length < rid) : warmStartLookup inst rid = none := by
  unfold warmStartLookup pyGet
  rw [if_pos (by omega)]
  apply List.get?_eq_none.mpr
  have htn : ((rid : Int) - 1).toNat = rid - 1 := by omega
  rw [htn]
  omega

lemma warmStartRaises_of_oob {inst : Instance} {r : Rectangle}
    (hr : r ∈ inst.rectangles) (h : inst.rectangles.length < r.id) :
    warmStartRaises inst = true := by
  unfold warmStartRaises
  rw [List.any_eq_true]
  refine ⟨r.id, List.mem_map.mpr ⟨r, hr, rfl⟩, ?_⟩
  rw [warmStartLookup_oob h]
  rfl

end SPP

namespace SPP

/-- C1: every Solution returned without error by the heuristic decoders
(NFDH or Skyline) or by the metaheuristic decoder passes the feasibility
check, for instances with positive strip width and dimensions and with
an empty forbidden-zone list.  The spec's stronger claim — feasibility
even with non-empty forbidden zones — is refuted by the accompanying
counterexample: the placement loops never consult the zones while the
checker rejects intersections with them. -/
theorem C1_heuristic_meta_feasibility (inst : Instance) (allow : Bool) (sol : Solution)
    (hW : 1 ≤ inst.W)
    (hdims : ∀ r ∈ inst.rectangles, 1 ≤ r.w ∧ 1 ≤ r.h)
    (hzones : inst.forbidden_zones = [])
    (hprod : nfdh inst allow = .ok sol ∨ skyline inst allow = .ok sol ∨
      ∃ strat perm bits, perm.Perm (inst.rectangles.map Rectangle.id) ∧
        perm.length ≤ bits.length ∧ decode inst allow strat perm bits = .ok sol) :
    check_feasibility sol inst = true := by
  rcases hprod with h | h | ⟨strat, perm, bits, hperm, hlen, h⟩
  · exact nfdh_check hzones h
  · exact skyline_check hW hdims hzones h
  · exact decode_check hW hdims hzones hperm hlen h

/-- Witness for C1 on Scenario A: the concrete NFDH run passes the
feasibility check. -/
theorem C1_heuristic_meta_feasibility_witness :
    check_feasibility ⟨5, [⟨1, 0, 0, 4, 3, false⟩, ⟨2, 4, 0, 4, 3, false⟩,
      ⟨3, 0, 3, 6, 2, true⟩], "Heuristic-NFDH", "feasible"⟩ instA = true :=
  C1_heuristic_meta_feasibility instA true
    ⟨5, [⟨1, 0, 0, 4, 3, false⟩, ⟨2, 4, 0, 4, 3, false⟩, ⟨3, 0, 3, 6, 2, true⟩],
      "Heuristic-NFDH", "feasible"⟩
    (by decide) (by decide) rfl (Or.inl rfl)

/-- Counterexample to C1 as stated: on an instance with a non-empty
forbidden-zone list, the Skyline heuristic returns without error a
Solution that fails the feasibility check, because the placement loop
ignores the zones while `check_feasibility` rejects intersections with
them. -/
theorem C1_forbidden_zone_counterexample :
    skyline instZone true
      = Except.ok ⟨3, [⟨1, 0, 0, 4, 3, false⟩], "Heuristic-Skyline", "feasible"⟩ ∧
    check_feasibility ⟨3, [⟨1, 0, 0, 4, 3, false⟩], "Heuristic-Skyline", "feasible"⟩
      instZone = false ∧
    instZone.forbidden_zones ≠ [] := by
  refine ⟨rfl, rfl, by decide⟩

/-- C2: the orientation lock holds for the heuristic decoders, the
metaheuristic decoder, the coordinate-MILP decode and the level-MILP
decode with rotation globally disallowed: a placement of a rectangle
with `rotatable = false` is never rotated.  The spec's stronger claim —
the lock holds for the level MILP also when rotation is allowed — is
refuted by the accompanying counterexample: the model creates `zV`
variables for every item without tying them to the `rotatable` flag. -/
theorem C2_orientation_lock (inst : Instance) (allow : Bool) (ps : List Placement)
    (hnodup : (inst.rectangles.map Rectangle.id).Nodup)
    (hprod :
      (∃ sol, nfdh inst allow = .ok sol ∧ ps = sol.placements) ∨
      (∃ sol, skyline inst allow = .ok sol ∧ ps = sol.placements) ∨
      (∃ strat perm bits sol, decode inst allow strat perm bits = .ok sol ∧
        ps = sol.placements) ∨
      (∃ a, ps = coordDecode inst allow a) ∨
      (allow = false ∧ ∃ L a, ps = levelDecode inst allow L a)) :
    ∀ p ∈ ps, ∀ r ∈ inst.rectangles, r.id = p.rect_id → r.rotatable = false →
      p.rotated = false := by
  rcases hprod with ⟨sol, h, hps⟩ | ⟨sol, h, hps⟩ | ⟨strat, perm, bits, sol, h, hps⟩ |
    ⟨a, hps⟩ | ⟨ha, L, a, hps⟩
  · subst hps
    obtain ⟨-, -, hrel⟩ := nfdh_facts h
    exact placements_lock hrel (nfdhOrder_perm inst allow) hnodup
  · subst hps
    exact placements_lock (skyline_rel h) (skylineOrder_perm inst allow) hnodup
  · subst hps
    exact decode_lock hnodup h
  · subst hps
    exact coordDecode_lock hnodup
  · subst ha
    subst hps
    intro p hp r hr hid hrot
    exact levelDecode_lock p hp

/-- Witness for C2: the concrete Skyline run on an instance with a
non-rotatable rectangle keeps that rectangle unrotated. -/
theorem C2_orientation_lock_witness :
    (⟨2, 0, 0, 3, 1, false⟩ : Placement).rotated = false :=
  C2_orientation_lock instSeqId true
    [⟨2, 0, 0, 3, 1, false⟩, ⟨1, 3, 0, 2, 2, false⟩] (by decide)
    (Or.inr (Or.inl ⟨⟨2, [⟨2, 0, 0, 3, 1, false⟩, ⟨1, 3, 0, 2, 2, false⟩],
      "Heuristic-Skyline", "feasible"⟩, rfl, rfl⟩))
    ⟨2, 0, 0, 3, 1, false⟩ (by decide) ⟨2, 3, 1, false⟩ (by decide) rfl rfl

/-- Counterexample to C2 as stated: with rotation allowed, the level
MILP admits a satisfying assignment that rotates a non-rotatable
rectangle — nothing in the constraint set ties the `zV` binaries to the
`rotatable` flag — and its decode emits `rotated = true` for it. -/
theorem C2_level_rotation_counterexample :
    levelConstraints instLvl true 1 assignLvl = true ∧
    instLvl.rectangles = [⟨1, 5, 2, false⟩] ∧
    levelDecode instLvl true 1 assignLvl = [⟨1, 0, 0, 2, 5, true⟩] := by
  refine ⟨by decide, rfl, rfl⟩

/-- C3: every Solution produced without error by any strategy — the
heuristic decoders, the metaheuristic decoder, a satisfying assignment
of the level MILP read back through its decode, or a satisfying
assignment of the coordinate MILP — has height at least
`max (area_lb, maxh_lb)`, on instances with a positive strip width,
positive dimensions, at least one rectangle and distinct ids. -/
theorem C3_height_lower_bound (inst : Instance) (allow : Bool) (H : Nat)
    (hW : 1 ≤ inst.W) (hne : inst.rectangles ≠ [])
    (hdims : ∀ r ∈ inst.rectangles, 1 ≤ r.w ∧ 1 ≤ r.h)
    (hnodup : (inst.rectangles.map Rectangle.id).Nodup)
    (hprod :
      (∃ sol, nfdh inst allow = .ok sol ∧ H = sol.H) ∨
      (∃ sol, skyline inst allow = .ok sol ∧ H = sol.H) ∨
      (∃ strat perm bits sol, perm.Perm (inst.rectangles.map Rectangle.id) ∧
        perm.length ≤ bits.length ∧ decode inst allow strat perm bits = .ok sol ∧
        H = sol.H) ∨
      (∃ L a, levelConstraints inst allow L a = true ∧
        H = levelHval inst allow L a) ∨
      (∃ Mx My a, coordConstraints inst allow Mx My a = true ∧
        H = coordHval inst allow a)) :
    max (area_lb inst) (maxh_lb inst allow) ≤ H := by
  rcases hprod with ⟨sol, h, hH⟩ | ⟨sol, h, hH⟩ |
    ⟨strat, perm, bits, sol, hperm, hlen, h, hH⟩ | ⟨L, a, h, hH⟩ | ⟨Mx, My, a, h, hH⟩
  · subst hH
    exact nfdh_lb hW hne h
  · subst hH
    exact skyline_lb hW hne hdims h
  · subst hH
    exact decode_lb hW hne hdims hnodup hperm hlen h
  · subst hH
    exact level_lb hW hne hdims hnodup h
  · subst hH
    exact coord_lb h

/-- Witness for C3 on Scenario A: the concrete NFDH height 5 is at least
both lower bounds. -/
theorem C3_height_lower_bound_witness :
    max (area_lb instA) (maxh_lb instA true) ≤ 5 :=
  C3_height_lower_bound instA true 5 (by decide) (by decide) (by decide) (by decide)
    (Or.inl ⟨⟨5, [⟨1, 0, 0, 4, 3, false⟩, ⟨2, 4, 0, 4, 3, false⟩,
      ⟨3, 0, 3, 6, 2, true⟩], "Heuristic-NFDH", "feasible"⟩, rfl, rfl⟩)

/-- C4: the heuristic decoders raise a geometry error exactly when some
rectangle's effective width — `max(w, h)` for a rotatable rectangle when
rotation is allowed (the height-minimizing orientation), else `w` —
exceeds the strip width, and the error payload carries that rectangle's
id, the offending width and the strip width.  The spec's claim that the
threshold is the minimal achievable width `min(w, h)` is refuted by the
accompanying counterexample. -/
theorem C4_geometry_error (inst : Instance) (allow : Bool) :
    ((∃ e, nfdh inst allow = .error e) ↔
      ∃ r ∈ inst.rectangles,
        inst.W < (if allow && r.rotatable then max r.w r.h else r.w)) ∧
    ((∃ e, skyline inst allow = .error e) ↔
      ∃ r ∈ inst.rectangles,
        inst.W < (if allow && r.rotatable then max r.w r.h else r.w)) ∧
    (∀ e, nfdh inst allow = .error e → ∃ r ∈ inst.rectangles,
      e = ⟨r.id, (if allow && r.rotatable then max r.w r.h else r.w), inst.W⟩) ∧
    (∀ e, skyline inst allow = .error e → ∃ r ∈ inst.rectangles,
      e = ⟨r.id, (if allow && r.rotatable then max r.w r.h else r.w), inst.W⟩) := by
  refine ⟨?_, ?_, ?_, ?_⟩
  · simp only [nfdh_error_iff, orient_w_eq]
  · simp only [skyline_error_iff, orient_w_eq]
  · intro e he
    obtain ⟨r, hr, hbad, hpay⟩ := nfdh_error_payload he
    exact ⟨r, hr, by rw [hpay, orient_w_eq]⟩
  · intro e he
    obtain ⟨r, hr, hbad, hpay⟩ := skyline_error_payload he
    exact ⟨r, hr, by rw [hpay, orient_w_eq]⟩

/-- Witness for C4 on the tall rectangle: the error exists and its
payload names the rectangle, its effective width 12 and the strip
width 10. -/
theorem C4_geometry_error_witness :
    (∃ e, nfdh instTall true = Except.error e) ∧
    (∃ r ∈ instTall.rectangles, (⟨1, 12, 10⟩ : GeomError)
      = ⟨r.id, (if true && r.rotatable then max r.w r.h else r.w), instTall.W⟩) :=
  ⟨(C4_geometry_error instTall true).1.mpr (by decide),
   (C4_geometry_error instTall true).2.2.1 ⟨1, 12, 10⟩ rfl⟩

/-- Counterexample to C4 as stated: a rotatable 3x12 rectangle on a
width-10 strip has minimal achievable width `min(3, 12) = 3 ≤ 10`, yet
both decoders raise the geometry error — `_orient` picks the
height-minimizing orientation, whose width is `max(3, 12) = 12`. -/
theorem C4_min_width_counterexample :
    min 3 12 ≤ instTall.W ∧
    instTall.rectangles.map Rectangle.rotatable = [true] ∧
    nfdh instTall true = Except.error ⟨1, 12, 10⟩ ∧
    skyline instTall true = Except.error ⟨1, 12, 10⟩ := by
  refine ⟨by decide, rfl, rfl, rfl⟩

/-- C5: the metaheuristic decoder's output does not depend on the values
of the orientation bits — any two bit vectors of equal length decode a
permutation identically (`_decode` zips the bits but never reads them).
The spec's claim that the bits select each item's orientation is refuted
by the accompanying counterexample. -/
theorem C5_orientation_bits_ignored (inst : Instance) (allow : Bool) (strat : String)
    (perm b1 b2 : List Nat) (hlen : b1.length = b2.length) :
    decode inst allow strat perm b1 = decode inst allow strat perm b2 :=
  decode_eq_of_len hlen

/-- Witness for C5: flipping the single orientation bit leaves the
decoded Solution unchanged. -/
theorem C5_orientation_bits_ignored_witness :
    decode instBit true "GA" [1] [0] = decode instBit true "GA" [1] [1] :=
  C5_orientation_bits_ignored instBit true "GA" [1] [0] [1] rfl

/-- Counterexample to C5 as stated: with orientation bit 0 — which per
the spec demands the unrotated orientation — the decoder still places
the rotatable 3x5 rectangle rotated (the Skyline pass re-chooses the
orientation and ignores the bit). -/
theorem C5_bit_zero_rotated_counterexample :
    decode instBit true "GA" [1] [0]
      = Except.ok ⟨3, [⟨1, 0, 0, 5, 3, true⟩], "Meta-GA-SkylineDecode", "feasible"⟩ ∧
    instBit.rectangles.map Rectangle.rotatable = [true] := by
  refine ⟨rfl, rfl⟩

/-- C6: when the caller does not specify `max_levels` (or passes the
Python-falsy 0), the level count defaults to the item count `n`
(`L = self.max_levels or n`), not to `ceil(n/2) + 1` as the spec states;
the accompanying counterexample separates the two at `n = 4`. -/
theorem C6_level_count_default (n : Nat) :
    levelL none n = n ∧ levelL (some 0) n = n :=
  ⟨rfl, rfl⟩

/-- Counterexample to C6 as stated: at `n = 4` the code's default is 4
while the spec's formula gives `ceil(4/2) + 1 = 3`. -/
theorem C6_level_count_counterexample :
    levelL none 4 = 4 ∧ (4 : Nat) ≠ (4 + 1) / 2 + 1 := by
  refine ⟨rfl, by decide⟩

/-- C7: in every NFDH solution, consecutive placements either sit on the
same shelf with the later one exactly `kerf_delta` to the right of the
earlier one's right edge, or start a new shelf at `x = 0`; and the
returned height is the top of the last shelf (`shelf_y + shelf_h` of the
final loop state). -/
theorem C7_shelf_kerf_gap (inst : Instance) (allow : Bool) (sol : Solution)
    (h : nfdh inst allow = .ok sol) :
    List.Chain' (fun p q =>
      (q.y = p.y ∧ q.x = p.x + p.w_eff + inst.kerf_delta) ∨ q.x = 0)
      sol.placements ∧
    ∃ st : NfdhSt, NfdhInv inst.W inst.kerf_delta st ∧
      sol.placements = st.ps ∧ sol.H = st.sy + st.sh := by
  obtain ⟨st, hinv, hsol, -⟩ := nfdh_ok h
  subst hsol
  exact ⟨hinv.chain, st, hinv, rfl, rfl⟩

/-- Witness for C7 on Scenario E: with kerf 2 and two 4x3 rectangles on
a width-10 strip, item 2 lands at `x = 4 + 2 = 6` on the first shelf and
the height is 3. -/
theorem C7_shelf_kerf_gap_witness :
    nfdh instE true = Except.ok ⟨3, [⟨1, 0, 0, 4, 3, false⟩, ⟨2, 6, 0, 4, 3, false⟩],
      "Heuristic-NFDH", "feasible"⟩ ∧
    (List.Chain' (fun p q =>
      (q.y = p.y ∧ q.x = p.x + p.w_eff + instE.kerf_delta) ∨ q.x = 0)
      (⟨3, [⟨1, 0, 0, 4, 3, false⟩, ⟨2, 6, 0, 4, 3, false⟩],
        "Heuristic-NFDH", "feasible"⟩ : Solution).placements ∧
    ∃ st : NfdhSt, NfdhInv instE.W instE.kerf_delta st ∧
      (⟨3, [⟨1, 0, 0, 4, 3, false⟩, ⟨2, 6, 0, 4, 3, false⟩],
        "Heuristic-NFDH", "feasible"⟩ : Solution).placements = st.ps ∧
      (⟨3, [⟨1, 0, 0, 4, 3, false⟩, ⟨2, 6, 0, 4, 3, false⟩],
        "Heuristic-NFDH", "feasible"⟩ : Solution).H = st.sy + st.sh) :=
  ⟨rfl, C7_shelf_kerf_gap instE true
    ⟨3, [⟨1, 0, 0, 4, 3, false⟩, ⟨2, 6, 0, 4, 3, false⟩],
      "Heuristic-NFDH", "feasible"⟩ rfl⟩

/-- C8: on an instance with no rectangles, both heuristic decoders
return without error the empty Solution with height 0. -/
theorem C8_empty_instance (inst : Instance) (allow : Bool)
    (h : inst.rectangles = []) :
    nfdh inst allow = Except.ok ⟨0, [], "Heuristic-NFDH", "feasible"⟩ ∧
    skyline inst allow = Except.ok ⟨0, [], "Heuristic-Skyline", "feasible"⟩ := by
  obtain ⟨W, rects, d, z⟩ := inst
  have h' : rects = [] := h
  subst h'
  exact ⟨rfl, rfl⟩

/-- Witness for C8 on a concrete empty instance. -/
theorem C8_empty_instance_witness :
    nfdh ⟨7, [], 1, []⟩ true = Except.ok ⟨0, [], "Heuristic-NFDH", "feasible"⟩ ∧
    skyline ⟨7, [], 1, []⟩ true = Except.ok ⟨0, [], "Heuristic-Skyline", "feasible"⟩ :=
  C8_empty_instance ⟨7, [], 1, []⟩ true rfl

/-- C9: the initial skyline profile is well formed (it tiles `[0, W)` in
one zero-height segment with no equal-height neighbours), a profile
update preserves well-formedness whenever the placed width is positive
and fits the strip, and a well-formed profile's segment widths sum to
the strip width. -/
theorem C9_skyline_profile_invariant (W x w y h : Nat) (segs : List Seg) :
    (1 ≤ W → skylineWF W [⟨0, W, 0⟩]) ∧
    (skylineWF W segs → 1 ≤ w → x + w ≤ W →
      skylineWF W (updateSkyline segs x w y h)) ∧
    (skylineWF W segs → (segs.map Seg.w).sum = W) := by
  refine ⟨?_, ?_, ?_⟩
  · intro hW
    constructor
    · show tiles 0 W [⟨0, W, 0⟩] = true
      simp [tiles, hW]
    · simp
  · rintro ⟨ht, hc⟩ hw hxw
    exact ⟨update_tiles ht hw hxw, update_chain ht hw hxw⟩
  · rintro ⟨ht, -⟩
    have := tiles_sum ht
    omega

/-- Witness for C9: the initial width-10 profile is well formed, a 4-wide
placement update keeps it well formed, and its widths sum to 10. -/
theorem C9_skyline_profile_invariant_witness :
    skylineWF 10 [⟨0, 10, 0⟩] ∧
    skylineWF 10 (updateSkyline [⟨0, 10, 0⟩] 0 4 0 3) ∧
    (([⟨0, 10, 0⟩] : List Seg).map Seg.w).sum = 10 :=
  ⟨(C9_skyline_profile_invariant 10 0 4 0 3 []).1 (by decide),
   (C9_skyline_profile_invariant 10 0 4 0 3 [⟨0, 10, 0⟩]).2.1 ⟨by decide, by simp⟩
     (by decide) (by decide),
   (C9_skyline_profile_invariant 10 0 4 0 3 [⟨0, 10, 0⟩]).2.2 ⟨by decide, by simp⟩⟩

/-- C10: the warm start's positional lookup `rectangles[rid - 1]` is
correct exactly on instances whose ids are `1..n` in list order — there
it returns each rectangle itself — and any rectangle id exceeding the
list length makes the warm-start loop perform an out-of-range access
(Python `IndexError`, modelled as a `none` lookup). -/
theorem C10_warm_start_indexing (inst : Instance) :
    ((∀ (k : Nat) (hk : k < inst.rectangles.length),
        (inst.rectangles.get ⟨k, hk⟩).id = k + 1) →
      ∀ r ∈ inst.rectangles, warmStartLookup inst r.id = some r) ∧
    (∀ r ∈ inst.rectangles, inst.rectangles.length < r.id →
      warmStartRaises inst = true) := by
  constructor
  · intro hids
    exact warmStartLookup_correct hids
  · intro r hr hlen
    exact warmStartRaises_of_oob hr hlen

/-- Witness for C10: on ids 1..2 the lookup returns the first rectangle
itself; on an instance whose only id is 5 the warm start goes out of
range. -/
theorem C10_warm_start_indexing_witness :
    warmStartLookup instSeqId 1 = some ⟨1, 2, 2, true⟩ ∧
    warmStartRaises instGapId = true :=
  ⟨(C10_warm_start_indexing instSeqId).1 (by decide) ⟨1, 2, 2, true⟩ (by decide),
   (C10_warm_start_indexing instGapId).2 ⟨5, 2, 2, true⟩ (by decide) (by decide)⟩

end SPP
